import Mathlib

/-!
Verification of `src/permutation.py`: a class representing elements of the
symmetric group Sn as a lookup table built from cycles, with application,
composition, power, order, sign, decomposition and string forms.

The Python code is shallowly embedded below.  Machine integers are `Nat`
(cycle elements, table entries) and `Int` (arguments of `__call__`, which
Python may receive negative).  Python exceptions are modelled with
`Option`/`Except`.  Python list indexing (including its negative-index
wraparound) is modelled by `pyGet?`, and `list.index` by `pyIndex?`.
-/

/-- Python list access `l[i]` with Python semantics: a negative index `i`
means `l[len l + i]`; out-of-range access gives `none` (Python `IndexError`). -/
def pyGet? (l : List Nat) (i : Int) : Option Nat :=
  if 0 ≤ i then
    if h : i.toNat < l.length then some (l.get ⟨i.toNat, h⟩) else none
  else
    let j : Int := i + l.length
    if 0 ≤ j then
      if h : j.toNat < l.length then some (l.get ⟨j.toNat, h⟩) else none
    else none

/-- Python `l.index`-style search: index of the first element satisfying `q`,
`none` when absent (Python raises `ValueError`, the caller catches it). -/
def pyIndex? {α : Type} (q : α → Bool) : List α → Option Nat
  | [] => none
  | a :: l => if q a then some 0 else (pyIndex? q l).map (· + 1)

/-- One pass of a single cycle over a value, from `permutation.__init__`:
Python `cycle[cycle.index(result) - len(cycle) + 1]`, where a `ValueError`
(the value does not occur in the cycle) is caught and leaves the value
unchanged.  The index `j - len + 1` is at most 0, so Python's negative
indexing makes it the cyclic successor. -/
def cycleApply (c : List Nat) (r : Nat) : Nat :=
  match pyIndex? (· == r) c with
  | none => r
  | some j => (pyGet? c ((j : Int) - c.length + 1)).getD r

/-- The image of point `i` under a sequence of cycles: `__init__` applies the
cycles in reverse order of the constructor arguments (`for cycle in
reversed(cycles)`). -/
def imageUnder (cycles : List (List Nat)) (i : Nat) : Nat :=
  cycles.reverse.foldl (fun r c => cycleApply c r) i

/-- Python `max` of a list of naturals (`max(cycle)`); for the nonempty lists
the code feeds it, the folded-in `0` is never the strict maximum. -/
def listMax (l : List Nat) : Nat := l.foldr max 0

/-- `size = max(max(cycle) for cycle in cycles)` from `__init__`. -/
def maxPoint (cycles : List (List Nat)) : Nat := listMax (cycles.map listMax)

/-- The `permutation` class: its single attribute is the lookup table
`self._lookup`, a list of length `size` holding at position `i` the image of
point `i + 1`. -/
structure permutation where
  lookup : List Nat
deriving DecidableEq

/-- `len(self)` = `len(self._lookup)` (`__len__`). -/
def permutation.size (p : permutation) : Nat := p.lookup.length

/-- `permutation.__init__`: `size` is the maximum integer appearing in any
cycle (Python raises `ValueError` when there is no cycle or a cycle is empty,
since `max` of an empty sequence is undefined); entry `i - 1` of the table is
the image of `i` under the cycles applied in reverse argument order. -/
def construct (cycles : List (List Nat)) : Option permutation :=
  if cycles.isEmpty || cycles.any (·.isEmpty) then none
  else
    some ⟨(List.range' 1 (maxPoint cycles)).map (fun i => imageUnder cycles i)⟩

/-- Convenience for concrete examples: a constructed permutation, with an
empty table standing in for a construction error. -/
def construct! (cycles : List (List Nat)) : permutation :=
  (construct cycles).getD ⟨[]⟩

/-- The error message raised by `__call__`:
`'{} not in permutation. Must be between 1 and {}.'.format(x, len(self))`. -/
def rangeErr (x : Int) (n : Nat) : String :=
  toString x ++ " not in permutation. Must be between 1 and " ++ toString n ++ "."

/-- `permutation.__call__`: `self._lookup[x - 1]`, with only `IndexError`
caught and re-raised with a message.  Python list indexing accepts negative
indices down to `-len`, so only `x - 1 ≥ len` or `x - 1 < -len` raise. -/
def applyE (p : permutation) (x : Int) : Except String Nat :=
  match pyGet? p.lookup (x - 1) with
  | some v => Except.ok v
  | none => Except.error (rangeErr x p.size)

/-- Application at an in-range point, as used internally by `_getcycles`
(where the argument is always a point of `1..size`, so `__call__` reduces to
`self._lookup[x-1]`). -/
def applyN (p : permutation) (x : Nat) : Nat := p.lookup.getD (x - 1) 0

/-- Inner loop of `_getcycles`: starting just after `start`, repeatedly
append `next_element` and mark it done until the walk returns to `start`.
Python relies on the table being a bijection for termination; the embedding
passes fuel (`size` always suffices for a valid table, as proved below). -/
def cycleFrom (f : Nat → Nat) (start : Nat) : Nat → Nat → List Bool → List Nat × List Bool
  | 0, _, nd => ([], nd)
  | fuel+1, cur, nd =>
    if cur = start then ([], nd)
    else
      let nd' := nd.set (cur - 1) false
      let res := cycleFrom f start fuel (f cur) nd'
      (cur :: res.1, res.2)

/-- Outer loop of `_getcycles`: while some entry of `not_done` is true, open
a cycle at the lowest such point, walk it, and keep it subject to the
`simplify` rule (`not simplify or len(cycle) > 1 or cycle[0] == len(self)`). -/
def decompAux (p : permutation) (simplify : Bool) : Nat → List Bool → List (List Nat)
  | 0, _ => []
  | fuel+1, nd =>
    match pyIndex? (fun b => b) nd with
    | none => []
    | some k =>
      let start := k + 1
      let nd1 := nd.set k false
      let res := cycleFrom (applyN p) start p.size (applyN p start) nd1
      let cycle := start :: res.1
      let rest := decompAux p simplify fuel res.2
      if !simplify || decide (cycle.length > 1) || (cycle.headD 0 == p.size) then
        cycle :: rest
      else rest

/-- `permutation._getcycles(simplify)`: `not_done = [True] * len(self)`, then
the decomposition loop. -/
def getcycles (p : permutation) (simplify : Bool) : List (List Nat) :=
  decompAux p simplify p.size (List.replicate p.size true)

/-- One cycle rendered by `__str__`: `' '.join(str(x) for x in cycle).join('()')`. -/
def cycleStr (c : List Nat) : String :=
  "(" ++ String.intercalate " " (c.map (fun x => toString x)) ++ ")"

/-- `permutation.__str__`: concatenation of the simplified cycles. -/
def strForm (p : permutation) : String :=
  String.join ((getcycles p true).map cycleStr)

/-- `permutation.__eq__`: `str(self) == str(other)`. -/
def permEq (a b : permutation) : Prop := strForm a = strForm b

instance (a b : permutation) : Decidable (permEq a b) :=
  inferInstanceAs (Decidable (strForm a = strForm b))

/-- `permutation.__mul__`: `perm(*(self._getcycles() + other._getcycles()))`. -/
def mul (a b : permutation) : Option permutation :=
  construct (getcycles a true ++ getcycles b true)

/-- Python `lst * k`: `k` concatenated copies of `lst`. -/
def listRepeat (l : List (List Nat)) (k : Nat) : List (List Nat) :=
  (List.replicate k l).flatten

/-- `permutation.__pow__`: `perm(*(self._getcycles() * idx))`. -/
def powP (a : permutation) (k : Nat) : Option permutation :=
  construct (listRepeat (getcycles a true) k)

/-- Fuel for the `order` loop of the embedding (`while result != self` in
Python has no bound; any concrete order computed below stays far under it). -/
def orderFuel : Nat := 1000

/-- Loop of `permutation.order`: while `result != self`, `result *= self`
and `order += 1`. -/
def orderAux (a : permutation) : Nat → permutation → Nat → Option Nat
  | 0, _, _ => none
  | fuel+1, result, count =>
    if permEq result a then some count
    else
      match mul result a with
      | none => none
      | some r => orderAux a fuel r (count + 1)

/-- `permutation.order`: `order = 1; result = self * self;` then the loop. -/
def permOrder (a : permutation) : Option Nat :=
  match mul a a with
  | none => none
  | some r => orderAux a orderFuel r 1

/-- `permutation.sgn`: `-2 * (len(filter(lambda x: not (len(x) % 2),
self._getcycles())) % 2) + 1`. -/
def sgn (p : permutation) : Int :=
  let evenCycles := (getcycles p true).filter (fun c => c.length % 2 == 0)
  (-2) * ((evenCycles.length : Int) % 2) + 1

/-- The cycles listed by `permutation.__repr__` (its comma-separated tuple
arguments): exactly `self._getcycles()`. -/
def reprCycles (p : permutation) : List (List Nat) := getcycles p true

/-- Python `str(tuple(cycle))`, as rendered inside `__repr__`. -/
def tupleStr (c : List Nat) : String :=
  match c with
  | [] => "()"
  | [x] => "(" ++ toString x ++ ",)"
  | _ => "(" ++ String.intercalate ", " (c.map (fun x => toString x)) ++ ")"

/-- `permutation.__repr__`: `'perm({})'.format(', '.join(str(tuple(cycle)) ...))`. -/
def reprForm (p : permutation) : String :=
  "perm(" ++ String.intercalate ", " ((reprCycles p).map tupleStr) ++ ")"

/-- The data-model invariant: the table is a bijection on `1..size`
(and the permutation has at least one point, as every constructed one does). -/
def Valid (p : permutation) : Prop :=
  1 ≤ p.size ∧ List.Perm p.lookup (List.range' 1 p.size)

instance (p : permutation) : Decidable (Valid p) :=
  inferInstanceAs (Decidable (_ ∧ _))

-- Concrete permutations used in the spec's scenarios.

def ex124 : permutation := construct! [[1, 2, 4]]
def ex12 : permutation := construct! [[1, 2]]
def ex123 : permutation := construct! [[1, 2, 3]]
def ex3 : permutation := construct! [[3]]
def ex4 : permutation := construct! [[4]]
def ex13 : permutation := construct! [[1, 3]]
def exOrd : permutation := construct! [[1, 3], [2, 5], [7, 4, 6]]

/-! ### Lemmas about `pyIndex?` -/

theorem pyIndex?_eq_none {α : Type} (q : α → Bool) (l : List α)
    (h : ∀ a, a ∈ l → q a = false) : pyIndex? q l = none := by
  induction l with
  | nil => rfl
  | cons a l ih =>
    simp only [pyIndex?, h a (List.mem_cons_self a l), Bool.false_eq_true, if_false]
    rw [ih (fun b hb => h b (List.mem_cons_of_mem a hb))]
    rfl

theorem pyIndex?_some {α : Type} (q : α → Bool) (l : List α) (j : Nat)
    (h : pyIndex? q l = some j) : ∃ hj : j < l.length, q (l.get ⟨j, hj⟩) = true := by
  induction l generalizing j with
  | nil => exact absurd h (by simp [pyIndex?])
  | cons a l ih =>
    by_cases ha : q a = true
    · rw [pyIndex?, if_pos ha] at h
      cases h
      exact ⟨Nat.succ_pos _, ha⟩
    · rw [pyIndex?, if_neg ha] at h
      cases hrec : pyIndex? q l with
      | none => rw [hrec] at h; cases h
      | some j0 =>
        rw [hrec] at h
        cases h
        obtain ⟨hj0, hq0⟩ := ih j0 hrec
        exact ⟨Nat.succ_lt_succ hj0, hq0⟩

theorem pyIndex?_get (c : List Nat) (hnd : c.Nodup) (j : Nat) (hj : j < c.length) :
    pyIndex? (· == c.get ⟨j, hj⟩) c = some j := by
  induction c generalizing j with
  | nil => exact absurd hj (Nat.not_lt_zero j)
  | cons a l ih =>
    match j with
    | 0 => simp [pyIndex?]
    | j+1 =>
      have hji : j < l.length := Nat.lt_of_succ_lt_succ hj
      have hne : (a == l.get ⟨j, hji⟩) = false := by
        rw [beq_eq_false_iff_ne]
        intro hcontra
        exact (List.nodup_cons.mp hnd).1 (hcontra ▸ List.get_mem l j hji)
      simp only [pyIndex?, List.get_cons_succ, hne, Bool.false_eq_true, if_false]
      rw [ih (List.nodup_cons.mp hnd).2 j hji]
      rfl

theorem pyIndex?_of_mem (c : List Nat) (x : Nat) (hx : x ∈ c) :
    ∃ j, ∃ hj : j < c.length, pyIndex? (· == x) c = some j ∧ c.get ⟨j, hj⟩ = x := by
  induction c with
  | nil => cases hx
  | cons a l ih =>
    by_cases ha : a = x
    · refine ⟨0, Nat.succ_pos _, ?_, ha⟩
      simp [pyIndex?, ha]
    · have hx' : x ∈ l := by
        cases List.mem_cons.mp hx with
        | inl h => exact absurd h.symm ha
        | inr h => exact h
      obtain ⟨j, hj, hfind, hget⟩ := ih hx'
      refine ⟨j + 1, Nat.succ_lt_succ hj, ?_, hget⟩
      have hab : (a == x) = false := by rw [beq_eq_false_iff_ne]; exact ha
      simp only [pyIndex?, hab, Bool.false_eq_true, if_false, hfind]
      rfl

/-! ### Lemmas about `pyGet?` and `cycleApply` -/

theorem pyGet?_pos (l : List Nat) (i : Int) (h0 : 0 ≤ i) (h : i.toNat < l.length) :
    pyGet? l i = some (l.get ⟨i.toNat, h⟩) := by
  simp only [pyGet?]
  rw [if_pos h0, dif_pos h]

theorem pyGet?_negIdx (l : List Nat) (i : Int) (hneg : i < 0) (h0 : 0 ≤ i + l.length)
    (h : (i + l.length).toNat < l.length) :
    pyGet? l i = some (l.get ⟨(i + l.length).toNat, h⟩) := by
  simp only [pyGet?]
  rw [if_neg (by omega), if_pos h0, dif_pos h]

theorem pyGet?_none (l : List Nat) (i : Int)
    (h : i + l.length < 0 ∨ (l.length : Int) ≤ i) : pyGet? l i = none := by
  simp only [pyGet?]
  rcases h with h | h
  · rw [if_neg (by omega), if_neg (by omega)]
  · rw [if_pos (by omega), dif_neg (by omega)]

theorem get_index_congr (c : List Nat) (i1 i2 : Nat) (h1 : i1 < c.length)
    (h2 : i2 < c.length) (h : i1 = i2) : c.get ⟨i1, h1⟩ = c.get ⟨i2, h2⟩ := by
  subst h; rfl

theorem cycleApply_eq_of_index (c : List Nat) (x : Nat) (j : Nat) (hj : j < c.length)
    (hfind : pyIndex? (· == x) c = some j) :
    cycleApply c x = c.get ⟨(j+1) % c.length, Nat.mod_lt _ (Nat.lt_of_le_of_lt (Nat.zero_le _) hj)⟩ := by
  have hstep : cycleApply c x = (pyGet? c ((j : Int) - c.length + 1)).getD x := by
    unfold cycleApply
    rw [hfind]
  rw [hstep]
  by_cases hcase : j + 1 = c.length
  · rw [show (j : Int) - c.length + 1 = 0 by omega,
      pyGet?_pos c 0 (le_refl 0) (by omega)]
    simp only [Option.getD_some]
    exact get_index_congr _ _ _ _ _ (by rw [← hcase, Nat.mod_self]; rfl)
  · have hlt : j + 1 < c.length := by omega
    rw [pyGet?_negIdx c ((j : Int) - c.length + 1) (by omega) (by omega) (by omega)]
    simp only [Option.getD_some]
    exact get_index_congr _ _ _ _ _ (by rw [Nat.mod_eq_of_lt hlt]; omega)

theorem cycleApply_of_not_mem (c : List Nat) (x : Nat) (hx : x ∉ c) :
    cycleApply c x = x := by
  have hnone : pyIndex? (· == x) c = none := by
    apply pyIndex?_eq_none
    intro a ha
    rw [beq_eq_false_iff_ne]
    exact fun h => hx (h ▸ ha)
  unfold cycleApply
  rw [hnone]

theorem cycleApply_get (c : List Nat) (hnd : c.Nodup) (j : Nat) (hj : j < c.length) :
    cycleApply c (c.get ⟨j, hj⟩) =
      c.get ⟨(j+1) % c.length, Nat.mod_lt _ (Nat.lt_of_le_of_lt (Nat.zero_le _) hj)⟩ :=
  cycleApply_eq_of_index c _ j hj (pyIndex?_get c hnd j hj)

theorem cycleApply_mem_of_mem (c : List Nat) (x : Nat) (hx : x ∈ c) :
    cycleApply c x ∈ c := by
  obtain ⟨j, hj, hfind, hget⟩ := pyIndex?_of_mem c x hx
  rw [cycleApply_eq_of_index c x j hj hfind]
  exact List.get_mem c _ _

theorem cycleApply_mem_iff (c : List Nat) (x : Nat) : cycleApply c x ∈ c ↔ x ∈ c := by
  constructor
  · intro h
    by_contra hx
    rw [cycleApply_of_not_mem c x hx] at h
    exact hx h
  · exact cycleApply_mem_of_mem c x

theorem succ_mod_eq (L i : Nat) (hi : i < L) :
    (i + 1) % L = if i + 1 = L then 0 else i + 1 := by
  split
  · rename_i h; rw [h, Nat.mod_self]
  · exact Nat.mod_eq_of_lt (by omega)

theorem cycleApply_injective (c : List Nat) (hnd : c.Nodup) :
    Function.Injective (cycleApply c) := by
  intro x y h
  by_cases hx : x ∈ c <;> by_cases hy : y ∈ c
  · obtain ⟨jx, hjx, hfx, hgx⟩ := pyIndex?_of_mem c x hx
    obtain ⟨jy, hjy, hfy, hgy⟩ := pyIndex?_of_mem c y hy
    rw [cycleApply_eq_of_index c x jx hjx hfx,
      cycleApply_eq_of_index c y jy hjy hfy] at h
    have hmod : (jx + 1) % c.length = (jy + 1) % c.length := by
      have := (List.Nodup.getElem_inj_iff hnd).mp (by
        simpa [List.get_eq_getElem] using h)
      exact this
    rw [succ_mod_eq _ jx hjx, succ_mod_eq _ jy hjy] at hmod
    have : jx = jy := by split at hmod <;> split at hmod <;> omega
    rw [← hgx, ← hgy]
    exact get_index_congr _ _ _ _ _ this
  · exfalso
    have h1 : cycleApply c x ∈ c := cycleApply_mem_of_mem c x hx
    rw [h, cycleApply_of_not_mem c y hy] at h1
    exact hy h1
  · exfalso
    have h1 : cycleApply c y ∈ c := cycleApply_mem_of_mem c y hy
    rw [← h, cycleApply_of_not_mem c x hx] at h1
    exact hx h1
  · rw [cycleApply_of_not_mem c x hx, cycleApply_of_not_mem c y hy] at h
    exact h

theorem cycleApply_singleton (a x : Nat) : cycleApply [a] x = x := by
  by_cases h : x ∈ [a]
  · have hax : x = a := by simpa using h
    subst hax
    rw [cycleApply_eq_of_index [x] x 0 (by simp) (by simp [pyIndex?])]
    simp
  · exact cycleApply_of_not_mem _ _ h

/-! ### Lemmas about `imageUnder`, `maxPoint` and `construct` -/

theorem imageUnder_nil (x : Nat) : imageUnder [] x = x := rfl

theorem imageUnder_cons (c : List Nat) (cs : List (List Nat)) (x : Nat) :
    imageUnder (c :: cs) x = cycleApply c (imageUnder cs x) := by
  unfold imageUnder
  rw [List.reverse_cons, List.foldl_append]
  rfl

theorem imageUnder_append (l1 l2 : List (List Nat)) (x : Nat) :
    imageUnder (l1 ++ l2) x = imageUnder l1 (imageUnder l2 x) := by
  unfold imageUnder
  rw [List.reverse_append, List.foldl_append]

theorem imageUnder_foldr (cs : List (List Nat)) (x : Nat) :
    imageUnder cs x = cs.foldr (fun c r => cycleApply c r) x := by
  induction cs with
  | nil => rfl
  | cons c cs ih => rw [imageUnder_cons, List.foldr_cons, ih]

theorem cycleApply_bounds (N : Nat) (c : List Nat) (hc : ∀ z, z ∈ c → 1 ≤ z ∧ z ≤ N)
    (x : Nat) (hx : 1 ≤ x ∧ x ≤ N) : 1 ≤ cycleApply c x ∧ cycleApply c x ≤ N := by
  by_cases h : x ∈ c
  · exact hc _ (cycleApply_mem_of_mem c x h)
  · rw [cycleApply_of_not_mem c x h]
    exact hx

theorem imageUnder_bounds (N : Nat) (cs : List (List Nat))
    (hcs : ∀ c, c ∈ cs → ∀ z, z ∈ c → 1 ≤ z ∧ z ≤ N)
    (x : Nat) (hx : 1 ≤ x ∧ x ≤ N) : 1 ≤ imageUnder cs x ∧ imageUnder cs x ≤ N := by
  induction cs with
  | nil => exact hx
  | cons c cs ih =>
    rw [imageUnder_cons]
    exact cycleApply_bounds N c (hcs c (List.mem_cons_self c cs)) _
      (ih (fun d hd => hcs d (List.mem_cons_of_mem c hd)))

theorem imageUnder_injective (cs : List (List Nat)) (hnd : ∀ c, c ∈ cs → c.Nodup) :
    Function.Injective (imageUnder cs) := by
  induction cs with
  | nil => intro x y h; exact h
  | cons c cs ih =>
    intro x y h
    rw [imageUnder_cons, imageUnder_cons] at h
    exact ih (fun d hd => hnd d (List.mem_cons_of_mem c hd))
      (cycleApply_injective c (hnd c (List.mem_cons_self c cs)) h)

theorem le_listMax (l : List Nat) (x : Nat) (hx : x ∈ l) : x ≤ listMax l := by
  induction l with
  | nil => cases hx
  | cons a l ih =>
    rcases List.mem_cons.mp hx with h | h
    · subst h; exact Nat.le_max_left _ _
    · exact Nat.le_trans (ih h) (Nat.le_max_right _ _)

theorem listMax_le (l : List Nat) (N : Nat) (h : ∀ x, x ∈ l → x ≤ N) :
    listMax l ≤ N := by
  induction l with
  | nil => exact Nat.zero_le N
  | cons a l ih =>
    exact Nat.max_le.mpr ⟨h a (List.mem_cons_self a l),
      ih (fun x hx => h x (List.mem_cons_of_mem a hx))⟩

theorem listMax_append (l1 l2 : List Nat) :
    listMax (l1 ++ l2) = max (listMax l1) (listMax l2) := by
  induction l1 with
  | nil => simp [listMax]
  | cons a l ih =>
    simp only [listMax, List.foldr_cons, List.cons_append] at *
    rw [ih, Nat.max_assoc]

theorem le_maxPoint (cs : List (List Nat)) (c : List Nat) (x : Nat)
    (hc : c ∈ cs) (hx : x ∈ c) : x ≤ maxPoint cs := by
  unfold maxPoint
  exact Nat.le_trans (le_listMax c x hx)
    (le_listMax _ _ (List.mem_map_of_mem listMax hc))

theorem maxPoint_le (cs : List (List Nat)) (N : Nat)
    (h : ∀ c, c ∈ cs → ∀ x, x ∈ c → x ≤ N) : maxPoint cs ≤ N := by
  unfold maxPoint
  apply listMax_le
  intro m hm
  rcases List.mem_map.mp hm with ⟨c, hc, rfl⟩
  exact listMax_le c N (h c hc)

theorem maxPoint_append (l1 l2 : List (List Nat)) :
    maxPoint (l1 ++ l2) = max (maxPoint l1) (maxPoint l2) := by
  unfold maxPoint
  rw [List.map_append, listMax_append]

theorem construct_eq_some (cycles : List (List Nat)) (h1 : cycles ≠ [])
    (h2 : ∀ c, c ∈ cycles → c ≠ []) :
    construct cycles =
      some ⟨(List.range' 1 (maxPoint cycles)).map (fun i => imageUnder cycles i)⟩ := by
  unfold construct
  rw [if_neg]
  simp only [Bool.or_eq_true, List.isEmpty_iff, List.any_eq_true, not_or]
  exact ⟨h1, by rintro ⟨c, hc, hce⟩; exact h2 c hc hce⟩

theorem construct_some_inv (cycles : List (List Nat)) (p : permutation)
    (h : construct cycles = some p) :
    p.lookup = (List.range' 1 (maxPoint cycles)).map (fun i => imageUnder cycles i)
    ∧ p.size = maxPoint cycles := by
  unfold construct at h
  split at h
  · cases h
  · cases h
    exact ⟨rfl, by simp [permutation.size]⟩

theorem mem_range'_bounds (s n m : Nat) : m ∈ List.range' s n ↔ s ≤ m ∧ m < s + n := by
  rw [List.mem_range']
  constructor
  · rintro ⟨i, hi, rfl⟩; omega
  · intro h; exact ⟨m - s, by omega, by omega⟩

theorem perm_of_range'_map (N : Nat) (F : Nat → Nat)
    (hmap : ∀ y, 1 ≤ y → y ≤ N → 1 ≤ F y ∧ F y ≤ N)
    (hinj : ∀ y z, 1 ≤ y → y ≤ N → 1 ≤ z → z ≤ N → F y = F z → y = z) :
    List.Perm ((List.range' 1 N).map F) (List.range' 1 N) := by
  have hnd : ((List.range' 1 N).map F).Nodup := by
    apply List.Nodup.map_on
    · intro x hx y hy h
      rw [mem_range'_bounds] at hx hy
      exact hinj x y hx.1 (by omega) hy.1 (by omega) h
    · exact List.nodup_range' 1 N
  have hsub : ((List.range' 1 N).map F) ⊆ List.range' 1 N := by
    intro z hz
    rcases List.mem_map.mp hz with ⟨y, hy, rfl⟩
    rw [mem_range'_bounds] at hy
    have := hmap y hy.1 (by omega)
    rw [mem_range'_bounds]
    omega
  exact List.Subperm.perm_of_length_le (List.subperm_of_subset hnd hsub) (by simp)

/-! ### The table as a function: bounds, injectivity, orbits -/

theorem getD_eq_get {α : Type} (l : List α) (i : Nat) (h : i < l.length) (d : α) :
    l.getD i d = l.get ⟨i, h⟩ := by
  rw [List.getD_eq_getElem?_getD, List.getElem?_eq_getElem h]
  rfl

theorem valid_lookup_nodup (p : permutation) (hv : Valid p) : p.lookup.Nodup :=
  (List.Perm.nodup_iff hv.2).mpr (List.nodup_range' 1 p.size)

theorem valid_mem_lookup (p : permutation) (hv : Valid p) (z : Nat) :
    z ∈ p.lookup ↔ (1 ≤ z ∧ z ≤ p.size) := by
  rw [List.Perm.mem_iff hv.2, mem_range'_bounds]
  omega

theorem valid_applyN_bounds (p : permutation) (hv : Valid p) (x : Nat)
    (hx : 1 ≤ x ∧ x ≤ p.size) : 1 ≤ applyN p x ∧ applyN p x ≤ p.size := by
  have hlt : x - 1 < p.lookup.length := by
    have : p.lookup.length = p.size := rfl
    omega
  rw [applyN, getD_eq_get p.lookup (x-1) hlt 0]
  exact (valid_mem_lookup p hv _).mp (List.get_mem _ _ _)

theorem valid_applyN_inj (p : permutation) (hv : Valid p) (x y : Nat)
    (hx : 1 ≤ x ∧ x ≤ p.size) (hy : 1 ≤ y ∧ y ≤ p.size)
    (h : applyN p x = applyN p y) : x = y := by
  have hlx : x - 1 < p.lookup.length := by
    have : p.lookup.length = p.size := rfl
    omega
  have hly : y - 1 < p.lookup.length := by
    have : p.lookup.length = p.size := rfl
    omega
  rw [applyN, applyN, getD_eq_get p.lookup (x-1) hlx 0,
    getD_eq_get p.lookup (y-1) hly 0] at h
  have := (List.Nodup.getElem_inj_iff (valid_lookup_nodup p hv)).mp
    (by simpa [List.get_eq_getElem] using h)
  omega

theorem valid_iter_bounds (p : permutation) (hv : Valid p) (k x : Nat)
    (hx : 1 ≤ x ∧ x ≤ p.size) :
    1 ≤ (applyN p)^[k] x ∧ (applyN p)^[k] x ≤ p.size := by
  induction k with
  | zero => exact hx
  | succ k ih =>
    rw [Function.iterate_succ_apply']
    exact valid_applyN_bounds p hv _ ih

theorem valid_iter_cancel (p : permutation) (hv : Valid p) (k x y : Nat)
    (hx : 1 ≤ x ∧ x ≤ p.size) (hy : 1 ≤ y ∧ y ≤ p.size)
    (h : (applyN p)^[k] x = (applyN p)^[k] y) : x = y := by
  induction k generalizing x y with
  | zero => exact h
  | succ k ih =>
    rw [Function.iterate_succ_apply, Function.iterate_succ_apply] at h
    exact valid_applyN_inj p hv x y hx hy
      (ih _ _ (valid_applyN_bounds p hv x hx) (valid_applyN_bounds p hv y hy) h)

theorem valid_exists_period (p : permutation) (hv : Valid p) (x : Nat)
    (hx : 1 ≤ x ∧ x ≤ p.size) :
    ∃ m, 0 < m ∧ m ≤ p.size ∧ (applyN p)^[m] x = x := by
  have hcard : (Finset.Icc 1 p.size).card < (Finset.range (p.size + 1)).card := by
    rw [Nat.card_Icc, Finset.card_range]
    omega
  have hmapsto : ∀ i, i ∈ Finset.range (p.size + 1) →
      (applyN p)^[i] x ∈ Finset.Icc 1 p.size := by
    intro i _
    have := valid_iter_bounds p hv i x hx
    rw [Finset.mem_Icc]
    exact this
  obtain ⟨i, hi, j, hj, hne, heq⟩ :=
    Finset.exists_ne_map_eq_of_card_lt_of_maps_to hcard hmapsto
  rw [Finset.mem_range] at hi hj
  rcases Nat.lt_or_ge i j with hij | hij
  · refine ⟨j - i, by omega, by omega, ?_⟩
    apply valid_iter_cancel p hv i _ _ (valid_iter_bounds p hv _ x hx) hx
    rw [← Function.iterate_add_apply]
    rw [show i + (j - i) = j by omega]
    exact heq.symm
  · have hij' : j < i := by omega
    refine ⟨i - j, by omega, by omega, ?_⟩
    apply valid_iter_cancel p hv j _ _ (valid_iter_bounds p hv _ x hx) hx
    rw [← Function.iterate_add_apply]
    rw [show j + (i - j) = i by omega]
    exact heq

/-! ### The `not_done` marker list -/

/-- The points a run of the inner loop marks done: `not_done[x-1] = False`
for each collected `x`. -/
def markAll (nd : List Bool) (xs : List Nat) : List Bool :=
  xs.foldl (fun a x => a.set (x - 1) false) nd

/-- Point `x` is still unvisited in `not_done`. -/
def Rmem (nd : List Bool) (x : Nat) : Prop :=
  1 ≤ x ∧ nd.getD (x - 1) false = true

theorem getD_bool_set_ne (l : List Bool) (i j : Nat) (b d : Bool) (h : i ≠ j) :
    (l.set i b).getD j d = l.getD j d := by
  rw [List.getD_eq_getElem?_getD, List.getElem?_set_ne h, ← List.getD_eq_getElem?_getD]

theorem getD_bool_default (l : List Bool) (i : Nat) (d : Bool) (h : l.length ≤ i) :
    l.getD i d = d := by
  rw [List.getD_eq_getElem?_getD, List.getElem?_eq_none h]
  rfl

theorem getD_bool_set_self (l : List Bool) (i : Nat) (b d : Bool) (h : i < l.length) :
    (l.set i b).getD i d = b := by
  rw [List.getD_eq_getElem?_getD, List.getElem?_set_self h]
  rfl

theorem Rmem_le_length (nd : List Bool) (x : Nat) (h : Rmem nd x) : x ≤ nd.length := by
  rcases h with ⟨h1, h2⟩
  by_contra hc
  rw [getD_bool_default nd (x-1) false (by omega)] at h2
  cases h2

theorem Rmem_set_false (nd : List Bool) (x y : Nat) (hx1 : 1 ≤ x) :
    Rmem (nd.set (x-1) false) y ↔ (Rmem nd y ∧ y ≠ x) := by
  by_cases hy0 : y = 0
  · subst hy0
    simp [Rmem]
  by_cases hxy : y = x
  · subst hxy
    constructor
    · rintro ⟨hy1, hget⟩
      exfalso
      by_cases hlt : y - 1 < nd.length
      · rw [getD_bool_set_self nd (y-1) false false hlt] at hget
        cases hget
      · rw [getD_bool_default _ (y-1) false (by simp; omega)] at hget
        cases hget
    · rintro ⟨_, hne⟩
      exact absurd rfl hne
  · unfold Rmem
    rw [getD_bool_set_ne nd (x-1) (y-1) false false (by omega)]
    constructor
    · rintro ⟨h1, h2⟩
      exact ⟨⟨h1, h2⟩, hxy⟩
    · rintro ⟨⟨h1, h2⟩, _⟩
      exact ⟨h1, h2⟩

theorem markAll_cons (nd : List Bool) (x : Nat) (xs : List Nat) :
    markAll nd (x :: xs) = markAll (nd.set (x-1) false) xs := rfl

theorem Rmem_markAll (nd : List Bool) (xs : List Nat) (y : Nat)
    (hxs : ∀ x, x ∈ xs → 1 ≤ x) :
    Rmem (markAll nd xs) y ↔ (Rmem nd y ∧ y ∉ xs) := by
  induction xs generalizing nd with
  | nil => simp [markAll]
  | cons x xs ih =>
    rw [markAll_cons,
      ih _ (fun z hz => hxs z (List.mem_cons_of_mem x hz)),
      Rmem_set_false nd x y (hxs x (List.mem_cons_self x xs))]
    simp only [List.mem_cons, not_or]
    tauto

theorem markAll_length (nd : List Bool) (xs : List Nat) :
    (markAll nd xs).length = nd.length := by
  induction xs generalizing nd with
  | nil => rfl
  | cons x xs ih => rw [markAll_cons, ih, List.length_set]

theorem count_set_false_le (l : List Bool) (i : Nat) :
    (l.set i false).count true ≤ l.count true := by
  induction l generalizing i with
  | nil => simp
  | cons b l ih =>
    match i with
    | 0 =>
      simp only [List.set_cons_zero, List.count_cons]
      have := ih 0
      cases b <;> simp
    | i+1 =>
      simp only [List.set_cons_succ, List.count_cons]
      exact Nat.add_le_add_right (ih i) _

theorem count_set_false_lt (l : List Bool) (i : Nat) (h : l.getD i false = true) :
    (l.set i false).count true < l.count true := by
  induction l generalizing i with
  | nil =>
    rw [getD_bool_default [] i false (by simp)] at h
    cases h
  | cons b l ih =>
    match i with
    | 0 =>
      have hb : b = true := h
      subst hb
      simp [List.count_cons]
    | i+1 =>
      simp only [List.set_cons_succ, List.count_cons]
      exact Nat.add_lt_add_right (ih i h) _

theorem count_markAll_le (nd : List Bool) (xs : List Nat) :
    (markAll nd xs).count true ≤ nd.count true := by
  induction xs generalizing nd with
  | nil => exact Nat.le_refl _
  | cons x xs ih =>
    rw [markAll_cons]
    exact Nat.le_trans (ih _) (count_set_false_le nd (x-1))

/-! ### Characterizing the inner loop of `_getcycles` -/

theorem cycleFrom_snd (f : Nat → Nat) (s : Nat) (fuel : Nat) :
    ∀ cur nd, (cycleFrom f s fuel cur nd).2 = markAll nd (cycleFrom f s fuel cur nd).1 := by
  induction fuel with
  | zero => intro cur nd; rfl
  | succ fuel ih =>
    intro cur nd
    by_cases h : cur = s
    · simp only [cycleFrom, if_pos h]
      rfl
    · simp only [cycleFrom, if_neg h]
      rw [markAll_cons]
      exact ih _ _

theorem cycleFrom_fst (f : Nat → Nat) (s m : Nat) (hmret : f^[m] s = s)
    (hmmin : ∀ j, 0 < j → j < m → f^[j] s ≠ s) :
    ∀ fuel t nd, 1 ≤ t → t ≤ m → m - t ≤ fuel →
    (cycleFrom f s fuel (f^[t] s) nd).1 =
      (List.range (m - t)).map (fun j => f^[j + t] s) := by
  intro fuel
  induction fuel with
  | zero =>
    intro t nd ht htm hfuel
    rw [show m - t = 0 by omega]
    rfl
  | succ fuel ih =>
    intro t nd ht htm hfuel
    by_cases hts : f^[t] s = s
    · have htm' : t = m := by
        by_contra hc
        exact hmmin t (by omega) (by omega) hts
      simp only [cycleFrom, if_pos hts]
      rw [show m - t = 0 by omega]
      rfl
    · have htlt : t < m := by
        rcases Nat.eq_or_lt_of_le htm with h | h
        · exfalso; rw [h] at hts; exact hts hmret
        · exact h
      simp only [cycleFrom, if_neg hts]
      rw [show f (f^[t] s) = f^[t+1] s from (Function.iterate_succ_apply' f t s).symm]
      rw [ih (t+1) _ (by omega) (by omega) (by omega)]
      rw [show m - t = (m - (t+1)) + 1 by omega, List.range_succ_eq_map]
      simp only [List.map_cons, List.map_map]
      refine congrArg₂ List.cons ?_ ?_
      · rw [Nat.zero_add]
      · apply List.map_congr_left
        intro j _
        simp only [Function.comp_apply]
        rw [show j + 1 + t = j + (t + 1) by omega]

/-! ### Orbits of a valid permutation -/

/-- The canonical cycle the decomposition loop walks from `s`:
`[s, f s, f² s, …]` up to the period of `s`. -/
def orbitList (f : Nat → Nat) (s m : Nat) : List Nat :=
  (List.range m).map (fun j => f^[j] s)

theorem orbitList_length (f : Nat → Nat) (s m : Nat) : (orbitList f s m).length = m := by
  simp [orbitList]

theorem orbitList_get (f : Nat → Nat) (s m : Nat) (j : Nat)
    (hj : j < (orbitList f s m).length) : (orbitList f s m).get ⟨j, hj⟩ = f^[j] s := by
  simp [orbitList]

theorem orbitList_mem (f : Nat → Nat) (s m : Nat) (x : Nat) :
    x ∈ orbitList f s m ↔ ∃ j, j < m ∧ f^[j] s = x := by
  simp only [orbitList, List.mem_map, List.mem_range]

theorem orbit_iter_inj (p : permutation) (hv : Valid p) (s m : Nat)
    (hs : 1 ≤ s ∧ s ≤ p.size)
    (hmmin : ∀ j, 0 < j → j < m → (applyN p)^[j] s ≠ s) :
    ∀ i j, i < m → j < m → (applyN p)^[i] s = (applyN p)^[j] s → i = j := by
  have key : ∀ i j, i ≤ j → j < m → (applyN p)^[i] s = (applyN p)^[j] s → i = j := by
    intro i j hij hj h
    have hsplit : (applyN p)^[i] ((applyN p)^[j-i] s) = (applyN p)^[i] s := by
      rw [← Function.iterate_add_apply, show i + (j - i) = j by omega]
      exact h.symm
    have := valid_iter_cancel p hv i _ _
      (valid_iter_bounds p hv _ s hs) hs hsplit
    by_contra hne
    exact hmmin (j - i) (by omega) (by omega) this
  intro i j hi hj h
  rcases Nat.le_total i j with hij | hij
  · exact key i j hij hj h
  · exact (key j i hij hi h.symm).symm

theorem orbitList_nodup (p : permutation) (hv : Valid p) (s m : Nat)
    (hs : 1 ≤ s ∧ s ≤ p.size)
    (hmmin : ∀ j, 0 < j → j < m → (applyN p)^[j] s ≠ s) :
    (orbitList (applyN p) s m).Nodup := by
  apply List.Nodup.map_on
  · intro i hi j hj h
    rw [List.mem_range] at hi hj
    exact orbit_iter_inj p hv s m hs hmmin i j hi hj h
  · exact List.nodup_range m

theorem orbitList_bounds (p : permutation) (hv : Valid p) (s m : Nat)
    (hs : 1 ≤ s ∧ s ≤ p.size) (x : Nat) (hx : x ∈ orbitList (applyN p) s m) :
    1 ≤ x ∧ x ≤ p.size := by
  rcases (orbitList_mem _ s m x).mp hx with ⟨j, _, rfl⟩
  exact valid_iter_bounds p hv j s hs

theorem orbitList_succ (p : permutation) (s m : Nat) (hm0 : 0 < m)
    (hmret : (applyN p)^[m] s = s) (j : Nat)
    (hj : j < (orbitList (applyN p) s m).length) :
    applyN p ((orbitList (applyN p) s m).get ⟨j, hj⟩) =
      (orbitList (applyN p) s m).getD ((j+1) % (orbitList (applyN p) s m).length) 0 := by
  rw [orbitList_get]
  rw [orbitList_length] at hj ⊢
  rw [show applyN p ((applyN p)^[j] s) = (applyN p)^[j+1] s from
    (Function.iterate_succ_apply' (applyN p) j s).symm]
  by_cases hcase : j + 1 = m
  · rw [hcase, Nat.mod_self,
      getD_eq_get _ 0 (by rw [orbitList_length]; omega) 0, orbitList_get]
    rw [hmret]
    rfl
  · have hlt : j + 1 < m := by omega
    rw [Nat.mod_eq_of_lt hlt,
      getD_eq_get _ (j+1) (by rw [orbitList_length]; omega) 0, orbitList_get]

/-! ### Orbit cycles -/

theorem pyIndex?_none_spec {α : Type} (q : α → Bool) (l : List α)
    (h : pyIndex? q l = none) : ∀ a, a ∈ l → q a = false := by
  induction l with
  | nil => intro a ha; cases ha
  | cons b l ih =>
    intro a ha
    by_cases hqb : q b = true
    · rw [pyIndex?, if_pos hqb] at h
      cases h
    · rw [pyIndex?, if_neg hqb] at h
      rcases List.mem_cons.mp ha with rfl | ha'
      · cases hq : q a with
        | false => rfl
        | true => exact absurd hq hqb
      · cases hrec : pyIndex? q l with
        | none => exact ih hrec a ha'
        | some j => rw [hrec] at h; cases h

theorem Rmem_count_pos (nd : List Bool) (y : Nat) (h : Rmem nd y) :
    0 < nd.count true := by
  have hylen := Rmem_le_length nd y h
  rcases h with ⟨hy1, hy2⟩
  have hlt : y - 1 < nd.length := by omega
  have hget : nd.get ⟨y-1, hlt⟩ = true := by
    rw [← getD_eq_get nd (y-1) hlt false]
    exact hy2
  have hmem : true ∈ nd := hget ▸ List.get_mem nd (y-1) hlt
  simpa using List.count_pos_iff.mpr hmem

/-- A cycle as emitted by the decomposition loop of a valid permutation:
nonempty, duplicate-free, inside `1..size`, and listing consecutive images
(the successor of the last element wrapping around to the first). -/
def IsOrbitCycle (p : permutation) (c : List Nat) : Prop :=
  c ≠ [] ∧ c.Nodup ∧ (∀ x, x ∈ c → 1 ≤ x ∧ x ≤ p.size) ∧
  ∀ j, ∀ hj : j < c.length, applyN p (c.get ⟨j, hj⟩) = c.getD ((j+1) % c.length) 0

theorem orbitList_isOrbitCycle (p : permutation) (hv : Valid p) (s m : Nat)
    (hs : 1 ≤ s ∧ s ≤ p.size) (hm0 : 0 < m) (hmret : (applyN p)^[m] s = s)
    (hmmin : ∀ j, 0 < j → j < m → (applyN p)^[j] s ≠ s) :
    IsOrbitCycle p (orbitList (applyN p) s m) := by
  refine ⟨?_, orbitList_nodup p hv s m hs hmmin,
    fun x hx => orbitList_bounds p hv s m hs x hx,
    fun j hj => orbitList_succ p s m hm0 hmret j hj⟩
  intro hc
  have := orbitList_length (applyN p) s m
  rw [hc] at this
  simp at this
  omega

theorem isOrbitCycle_image (p : permutation) (c : List Nat) (hc : IsOrbitCycle p c)
    (x : Nat) (hx : x ∈ c) : applyN p x ∈ c := by
  rcases hc with ⟨hne, hnd, hbd, hsucc⟩
  obtain ⟨⟨j, hj⟩, hget⟩ := List.mem_iff_get.mp hx
  have hL : 0 < c.length := by omega
  rw [← hget, hsucc j hj,
    getD_eq_get c _ (Nat.mod_lt _ hL) 0]
  exact List.get_mem c _ _

theorem isOrbitCycle_preimage (p : permutation) (hv : Valid p) (c : List Nat)
    (hc : IsOrbitCycle p c) (y : Nat) (hy : 1 ≤ y ∧ y ≤ p.size)
    (h : applyN p y ∈ c) : y ∈ c := by
  obtain ⟨⟨i0, hi0⟩, hget⟩ := List.mem_iff_get.mp h
  rcases hc with ⟨hne, hnd, hbd, hsucc⟩
  have hL : 0 < c.length := by omega
  have hiL : (i0 + c.length - 1) % c.length < c.length := Nat.mod_lt _ hL
  have hsucci : ((i0 + c.length - 1) % c.length + 1) % c.length = i0 := by
    by_cases h0 : i0 = 0
    · subst h0
      have h1 : (0 + c.length - 1) % c.length = c.length - 1 := by
        rw [Nat.zero_add]
        exact Nat.mod_eq_of_lt (by omega)
      rw [h1, show c.length - 1 + 1 = c.length by omega, Nat.mod_self]
    · have h1 : (i0 + c.length - 1) % c.length = i0 - 1 := by
        rw [show i0 + c.length - 1 = (i0 - 1) + c.length by omega,
          Nat.add_mod_right]
        exact Nat.mod_eq_of_lt (by omega)
      rw [h1, show i0 - 1 + 1 = i0 by omega]
      exact Nat.mod_eq_of_lt (by omega)
  have heq : applyN p (c.get ⟨(i0 + c.length - 1) % c.length, hiL⟩) = applyN p y := by
    rw [hsucc _ hiL, hsucci, getD_eq_get c i0 hi0 0, hget]
  have := valid_applyN_inj p hv _ y
    (hbd _ (List.get_mem c _ _)) hy heq
  rw [← this]
  exact List.get_mem c _ _

/-! ### Correctness of the decomposition loop (simplify = false) -/

theorem decompAux_false_spec (p : permutation) (hv : Valid p) :
    ∀ fuel nd, nd.length = p.size →
    (∀ x, Rmem nd x → Rmem nd (applyN p x)) →
    nd.count true ≤ fuel →
    (∀ c, c ∈ decompAux p false fuel nd → IsOrbitCycle p c)
    ∧ List.Pairwise (fun c d => ∀ x, x ∈ c → x ∉ d) (decompAux p false fuel nd)
    ∧ (∀ y, (∃ c, c ∈ decompAux p false fuel nd ∧ y ∈ c) ↔ Rmem nd y) := by
  intro fuel
  induction fuel with
  | zero =>
    intro nd hlen hclosed hcount
    refine ⟨?_, List.Pairwise.nil, ?_⟩
    · intro c hc
      cases hc
    intro y
    constructor
    · rintro ⟨c, hc, _⟩; cases hc
    · intro hy
      exact absurd (Rmem_count_pos nd y hy) (by omega)
  | succ fuel ih =>
    intro nd hlen hclosed hcount
    cases hfind : pyIndex? (fun b => b) nd with
    | none =>
      have hnone : ∀ y, ¬ Rmem nd y := by
        rintro y ⟨hy1, hy2⟩
        have hylen : y ≤ nd.length := Rmem_le_length nd y ⟨hy1, hy2⟩
        have hget : nd.get ⟨y-1, by omega⟩ = true := by
          rw [← getD_eq_get nd (y-1) (by omega) false]
          exact hy2
        have := pyIndex?_none_spec (fun b => b) nd hfind _
          (hget ▸ List.get_mem nd (y-1) (by omega))
        simp at this
      simp only [decompAux, hfind]
      refine ⟨?_, List.Pairwise.nil, ?_⟩
      · intro c hc
        cases hc
      intro y
      constructor
      · rintro ⟨c, hc, _⟩; cases hc
      · intro hy; exact absurd hy (hnone y)
    | some k =>
      obtain ⟨hk, hkget⟩ := pyIndex?_some (fun b => b) nd k hfind
      have hstart : Rmem nd (k+1) := by
        refine ⟨by omega, ?_⟩
        simp only [Nat.add_sub_cancel]
        rw [getD_eq_get nd k (by omega) false]
        simpa using hkget
      have hsbounds : 1 ≤ k+1 ∧ k+1 ≤ p.size :=
        ⟨by omega, by rw [← hlen]; exact Rmem_le_length nd _ hstart⟩
      obtain ⟨m0, hm00, hm0n, hm0ret⟩ := valid_exists_period p hv (k+1) hsbounds
      have hex : ∃ m, 0 < m ∧ (applyN p)^[m] (k+1) = k+1 := ⟨m0, hm00, hm0ret⟩
      have hm := Nat.find_spec hex
      have hmmin : ∀ j, 0 < j → j < Nat.find hex →
          (applyN p)^[j] (k+1) ≠ (k+1) := by
        intro j hj0 hjm hcontra
        exact Nat.find_min hex hjm ⟨hj0, hcontra⟩
      have hmle : Nat.find hex ≤ m0 := Nat.find_min' hex ⟨hm00, hm0ret⟩
      have hiterone : applyN p (k+1) = (applyN p)^[1] (k+1) := by
        rw [Function.iterate_one]
      have hfst : (cycleFrom (applyN p) (k+1) p.size (applyN p (k+1)) (nd.set k false)).1
          = (List.range (Nat.find hex - 1)).map (fun j => (applyN p)^[j + 1] (k+1)) := by
        rw [hiterone]
        exact cycleFrom_fst (applyN p) (k+1) (Nat.find hex) hm.2 hmmin p.size 1
          (nd.set k false) (le_refl 1) hm.1 (by omega)
      have hcycle : (k+1) :: (cycleFrom (applyN p) (k+1) p.size (applyN p (k+1))
            (nd.set k false)).1
          = orbitList (applyN p) (k+1) (Nat.find hex) := by
        rw [hfst, orbitList,
          show Nat.find hex = (Nat.find hex - 1) + 1 by omega,
          List.range_succ_eq_map]
        simp only [List.map_cons, List.map_map]
        refine congrArg₂ List.cons rfl ?_
        apply List.map_congr_left
        intro j _
        rfl
      have hnd2 : (cycleFrom (applyN p) (k+1) p.size (applyN p (k+1))
            (nd.set k false)).2
          = markAll nd (orbitList (applyN p) (k+1) (Nat.find hex)) := by
        rw [cycleFrom_snd, ← hcycle, markAll_cons]
        simp
      have horb : IsOrbitCycle p (orbitList (applyN p) (k+1) (Nat.find hex)) :=
        orbitList_isOrbitCycle p hv (k+1) (Nat.find hex) hsbounds hm.1 hm.2 hmmin
      have horbpos : ∀ x, x ∈ orbitList (applyN p) (k+1) (Nat.find hex) → 1 ≤ x :=
        fun x hx => (horb.2.2.1 x hx).1
      have hR2 : ∀ y, Rmem (markAll nd (orbitList (applyN p) (k+1) (Nat.find hex))) y
          ↔ (Rmem nd y ∧ y ∉ orbitList (applyN p) (k+1) (Nat.find hex)) :=
        fun y => Rmem_markAll nd _ y horbpos
      have horbR : ∀ x, x ∈ orbitList (applyN p) (k+1) (Nat.find hex) → Rmem nd x := by
        have hallj : ∀ j, Rmem nd ((applyN p)^[j] (k+1)) := by
          intro j
          induction j with
          | zero => exact hstart
          | succ j ihj =>
            rw [Function.iterate_succ_apply']
            exact hclosed _ ihj
        intro x hx
        rcases (orbitList_mem _ _ _ x).mp hx with ⟨j, _, rfl⟩
        exact hallj j
      have hlen2 : (markAll nd (orbitList (applyN p) (k+1) (Nat.find hex))).length
          = p.size := by
        rw [markAll_length, hlen]
      have hclosed2 : ∀ x,
          Rmem (markAll nd (orbitList (applyN p) (k+1) (Nat.find hex))) x →
          Rmem (markAll nd (orbitList (applyN p) (k+1) (Nat.find hex))) (applyN p x) := by
        intro x hx
        rw [hR2] at hx ⊢
        rcases hx with ⟨hxR, hxnot⟩
        refine ⟨hclosed x hxR, ?_⟩
        intro hfx
        have hxb : 1 ≤ x ∧ x ≤ p.size :=
          ⟨hxR.1, by rw [← hlen]; exact Rmem_le_length nd x hxR⟩
        exact hxnot (isOrbitCycle_preimage p hv _ horb x hxb hfx)
      have hcount2 : (markAll nd (orbitList (applyN p) (k+1) (Nat.find hex))).count true
          ≤ fuel := by
        have h1 : (nd.set k false).count true < nd.count true :=
          count_set_false_lt nd k (by
            rw [getD_eq_get nd k (by omega) false]
            simpa using hkget)
        have h2 : (markAll nd (orbitList (applyN p) (k+1) (Nat.find hex))).count true
            ≤ (nd.set k false).count true := by
          rw [← hcycle, markAll_cons]
          simpa using count_markAll_le (nd.set k false) _
        omega
      obtain ⟨ihA, ihB, ihC⟩ := ih _ hlen2 hclosed2 hcount2
      have hstep : decompAux p false (fuel+1) nd
          = orbitList (applyN p) (k+1) (Nat.find hex)
            :: decompAux p false fuel
                (markAll nd (orbitList (applyN p) (k+1) (Nat.find hex))) := by
        simp only [decompAux, hfind, Bool.not_false, Bool.true_or, if_pos]
        rw [← hnd2, ← hcycle]
      rw [hstep]
      refine ⟨?_, ?_, ?_⟩
      · intro c hc
        rcases List.mem_cons.mp hc with rfl | hc'
        · exact horb
        · exact ihA c hc'
      · rw [List.pairwise_cons]
        refine ⟨?_, ihB⟩
        intro d hd x hxC
        intro hxd
        have hxR2 := (ihC x).mp ⟨d, hd, hxd⟩
        rw [hR2] at hxR2
        exact hxR2.2 hxC
      · intro y
        constructor
        · rintro ⟨c, hc, hyc⟩
          rcases List.mem_cons.mp hc with rfl | hc'
          · exact horbR y hyc
          · have := (ihC y).mp ⟨c, hc', hyc⟩
            rw [hR2] at this
            exact this.1
        · intro hy
          by_cases hyC : y ∈ orbitList (applyN p) (k+1) (Nat.find hex)
          · exact ⟨_, List.mem_cons_self _ _, hyC⟩
          · obtain ⟨c, hc, hyc⟩ := (ihC y).mpr (by rw [hR2]; exact ⟨hy, hyC⟩)
            exact ⟨c, List.mem_cons_of_mem _ hc, hyc⟩

/-! ### `simplify=true` is a filter over the full decomposition -/

theorem keep_pred_eq (n s : Nat) (t : List Nat) :
    (decide ((s :: t).length > 1) || ((s :: t).headD 0 == n))
    = (decide (1 < (s :: t).length) || (s :: t).contains n) := by
  cases t with
  | nil =>
    by_cases h : s = n
    · subst h
      simp [List.contains]
    · have h1 : (s == n) = false := beq_eq_false_iff_ne.mpr h
      have h2 : (n == s) = false := beq_eq_false_iff_ne.mpr (Ne.symm h)
      simp [List.contains, List.elem, h1, h2]
  | cons b t' =>
    have hlen : 1 < (s :: b :: t').length := by
      simp only [List.length_cons]
      omega
    simp [hlen]

theorem decompAux_simplify_eq_filter (p : permutation) :
    ∀ fuel nd, decompAux p true fuel nd
      = (decompAux p false fuel nd).filter
          (fun c => decide (1 < c.length) || c.contains p.size) := by
  intro fuel
  induction fuel with
  | zero => intro nd; rfl
  | succ fuel ih =>
    intro nd
    cases hfind : pyIndex? (fun b => b) nd with
    | none => simp [decompAux, hfind]
    | some k =>
      simp only [decompAux, hfind, Bool.not_true, Bool.false_or, Bool.not_false,
        Bool.true_or, if_true]
      rw [ih, List.filter_cons, keep_pred_eq]

theorem getcycles_simplify_eq_filter (p : permutation) :
    getcycles p true = (getcycles p false).filter
      (fun c => decide (1 < c.length) || c.contains p.size) :=
  decompAux_simplify_eq_filter p p.size (List.replicate p.size true)

/-! ### Decomposition of a valid permutation -/

theorem getD_replicate_true (n i : Nat) (d : Bool) :
    (List.replicate n true).getD i d = if i < n then true else d := by
  by_cases h : i < n
  · rw [if_pos h, getD_eq_get _ i (by simpa using h) d, List.get_replicate]
  · rw [if_neg h, getD_bool_default _ _ _ (by simpa using Nat.le_of_not_lt h)]

theorem getcycles_false_spec (p : permutation) (hv : Valid p) :
    (∀ c, c ∈ getcycles p false → IsOrbitCycle p c)
    ∧ List.Pairwise (fun c d => ∀ x, x ∈ c → x ∉ d) (getcycles p false)
    ∧ (∀ y, (∃ c, c ∈ getcycles p false ∧ y ∈ c) ↔ (1 ≤ y ∧ y ≤ p.size)) := by
  have hrep : ∀ y, Rmem (List.replicate p.size true) y ↔ (1 ≤ y ∧ y ≤ p.size) := by
    intro y
    unfold Rmem
    rw [getD_replicate_true]
    constructor
    · rintro ⟨h1, h2⟩
      split at h2
      · constructor
        · exact h1
        · omega
      · cases h2
    · rintro ⟨h1, h2⟩
      exact ⟨h1, by rw [if_pos (by omega)]⟩
  obtain ⟨hA, hB, hC⟩ := decompAux_false_spec p hv p.size (List.replicate p.size true)
    (by simp) (by
      intro x hx
      rw [hrep] at hx ⊢
      exact valid_applyN_bounds p hv x hx)
    (by simp [List.count_replicate])
  refine ⟨hA, hB, ?_⟩
  intro y
  rw [← hrep y]
  exact hC y

theorem isOrbitCycle_cycleApply (p : permutation) (c : List Nat)
    (hc : IsOrbitCycle p c) (y : Nat) (hy : y ∈ c) :
    cycleApply c y = applyN p y := by
  obtain ⟨j, hj, hfind, hget⟩ := pyIndex?_of_mem c y hy
  rcases hc with ⟨hne, hnd, hbd, hsucc⟩
  rw [cycleApply_eq_of_index c y j hj hfind, ← hget, hsucc j hj,
    getD_eq_get c _ (Nat.mod_lt _ (by omega)) 0]

theorem imageUnder_disjoint_cycles (p : permutation) (hv : Valid p) :
    ∀ cs : List (List Nat), (∀ c, c ∈ cs → IsOrbitCycle p c) →
    List.Pairwise (fun c d => ∀ x, x ∈ c → x ∉ d) cs →
    ∀ y, (¬ (∃ c, c ∈ cs ∧ y ∈ c) → imageUnder cs y = y)
      ∧ ((∃ c, c ∈ cs ∧ y ∈ c) → imageUnder cs y = applyN p y) := by
  intro cs
  induction cs with
  | nil =>
    intro _ _ y
    exact ⟨fun _ => imageUnder_nil y, by rintro ⟨c, hc, _⟩; cases hc⟩
  | cons c cs ihc =>
    intro hall hdisj y
    obtain ⟨hhead, htail⟩ := List.pairwise_cons.mp hdisj
    have hIH := ihc (fun d hd => hall d (List.mem_cons_of_mem c hd)) htail
    constructor
    · intro hnot
      rw [imageUnder_cons]
      have hy_not_cs : ¬ ∃ d, d ∈ cs ∧ y ∈ d := by
        rintro ⟨d, hd, hyd⟩
        exact hnot ⟨d, List.mem_cons_of_mem c hd, hyd⟩
      rw [(hIH y).1 hy_not_cs]
      exact cycleApply_of_not_mem c y (fun hy => hnot ⟨c, List.mem_cons_self c cs, hy⟩)
    · rintro ⟨d, hd, hyd⟩
      rcases List.mem_cons.mp hd with rfl | hd'
      · rw [imageUnder_cons]
        have hy_not_cs : ¬ ∃ e, e ∈ cs ∧ y ∈ e := by
          rintro ⟨e, he, hye⟩
          exact (hhead e he y hyd) hye
        rw [(hIH y).1 hy_not_cs]
        exact isOrbitCycle_cycleApply p d (hall d (List.mem_cons_self d cs)) y hyd
      · rw [imageUnder_cons, (hIH y).2 ⟨d, hd', hyd⟩]
        have hfyd : applyN p y ∈ d :=
          isOrbitCycle_image p d (hall d (List.mem_cons_of_mem c hd')) y hyd
        apply cycleApply_of_not_mem
        intro hfc
        exact (hhead d hd' _ hfc) hfyd

theorem imageUnder_getcycles_false (p : permutation) (hv : Valid p) (y : Nat) :
    imageUnder (getcycles p false) y =
      if 1 ≤ y ∧ y ≤ p.size then applyN p y else y := by
  obtain ⟨hA, hB, hC⟩ := getcycles_false_spec p hv
  have := imageUnder_disjoint_cycles p hv (getcycles p false) hA hB y
  split
  · rename_i hin
    exact this.2 ((hC y).mpr hin)
  · rename_i hout
    exact this.1 (fun hex => hout ((hC y).mp hex))

theorem imageUnder_filter_id (pred : List Nat → Bool) :
    ∀ cs : List (List Nat),
    (∀ c, c ∈ cs → pred c = false → ∀ x, cycleApply c x = x) →
    ∀ y, imageUnder (cs.filter pred) y = imageUnder cs y := by
  intro cs
  induction cs with
  | nil => intro _ y; rfl
  | cons c cs ihc =>
    intro hid y
    rw [List.filter_cons]
    have hIH := ihc (fun d hd => hid d (List.mem_cons_of_mem c hd)) y
    split
    · rw [imageUnder_cons, imageUnder_cons, hIH]
    · rename_i hpred
      rw [hIH, imageUnder_cons]
      rw [hid c (List.mem_cons_self c cs) (by simpa using hpred)]

theorem dropped_cycles_id (p : permutation) (hv : Valid p) (c : List Nat)
    (hc : c ∈ getcycles p false)
    (hpred : (decide (1 < c.length) || c.contains p.size) = false) :
    ∀ x, cycleApply c x = x := by
  obtain ⟨hA, _, _⟩ := getcycles_false_spec p hv
  have hlen1 : c.length = 1 := by
    have hne := (hA c hc).1
    have : ¬ (1 < c.length) := by
      intro hgt
      simp [hgt] at hpred
    have hpos : 0 < c.length := List.length_pos.mpr hne
    omega
  obtain ⟨a, rfl⟩ := List.length_eq_one.mp hlen1
  exact cycleApply_singleton a

theorem imageUnder_getcycles_true (p : permutation) (hv : Valid p) (y : Nat) :
    imageUnder (getcycles p true) y =
      if 1 ≤ y ∧ y ≤ p.size then applyN p y else y := by
  rw [getcycles_simplify_eq_filter p,
    imageUnder_filter_id _ (getcycles p false) (dropped_cycles_id p hv) y,
    imageUnder_getcycles_false p hv y]

/-! ### The simplified decomposition determines the size, and round-trips -/

theorem getcycles_true_subset (p : permutation) (c : List Nat)
    (hc : c ∈ getcycles p true) : c ∈ getcycles p false := by
  rw [getcycles_simplify_eq_filter p] at hc
  exact List.mem_of_mem_filter hc

theorem size_mem_getcycles_true (p : permutation) (hv : Valid p) :
    ∃ c, c ∈ getcycles p true ∧ p.size ∈ c := by
  obtain ⟨hA, hB, hC⟩ := getcycles_false_spec p hv
  obtain ⟨c, hc, hmem⟩ := (hC p.size).mpr ⟨hv.1, Nat.le_refl _⟩
  refine ⟨c, ?_, hmem⟩
  rw [getcycles_simplify_eq_filter p]
  apply List.mem_filter.mpr
  refine ⟨hc, ?_⟩
  have : c.contains p.size = true := List.elem_eq_true_of_mem hmem
  rw [this, Bool.or_true]

theorem getcycles_true_ne_nil (p : permutation) (hv : Valid p) :
    getcycles p true ≠ [] := by
  obtain ⟨c, hc, _⟩ := size_mem_getcycles_true p hv
  exact List.ne_nil_of_mem hc

theorem maxPoint_getcycles_true (p : permutation) (hv : Valid p) :
    maxPoint (getcycles p true) = p.size := by
  apply Nat.le_antisymm
  · apply maxPoint_le
    intro c hc x hx
    obtain ⟨hA, _, _⟩ := getcycles_false_spec p hv
    exact ((hA c (getcycles_true_subset p c hc)).2.2.1 x hx).2
  · obtain ⟨c, hc, hmem⟩ := size_mem_getcycles_true p hv
    exact le_maxPoint _ c _ hc hmem

theorem construct_getcycles (p : permutation) (hv : Valid p) :
    construct (getcycles p true) = some p := by
  obtain ⟨hA, hB, hC⟩ := getcycles_false_spec p hv
  have h2 : ∀ c, c ∈ getcycles p true → c ≠ [] :=
    fun c hc => (hA c (getcycles_true_subset p c hc)).1
  rw [construct_eq_some _ (getcycles_true_ne_nil p hv) h2]
  have hlk : (List.range' 1 (maxPoint (getcycles p true))).map
      (fun i => imageUnder (getcycles p true) i) = p.lookup := by
    apply List.ext_get
    · simp [maxPoint_getcycles_true p hv]
      rfl
    · intro i h1 h2
      rw [List.get_map]
      have hri : (List.range' 1 (maxPoint (getcycles p true))).get
          ⟨i, by simpa using h1⟩ = 1 + i := by
        simp [List.get_eq_getElem, List.getElem_range']
      rw [hri]
      have hlen : i < p.size := by
        have := h1
        simp [maxPoint_getcycles_true p hv] at this
        exact this
      rw [imageUnder_getcycles_true p hv (1 + i)]
      rw [if_pos (by constructor <;> omega)]
      rw [applyN, show 1 + i - 1 = i by omega, getD_eq_get p.lookup i h2 0]
  cases p with
  | mk lookup =>
    simp only at hlk
    rw [hlk]

/-! ### Multiplication -/

/-- The function a permutation computes, extended by the identity outside
`1..size` (this is how a table of one size acts inside a product of a
larger size). -/
def extFun (p : permutation) (y : Nat) : Nat :=
  if 1 ≤ y ∧ y ≤ p.size then applyN p y else y

theorem imageUnder_getcycles_ext (p : permutation) (hv : Valid p) (y : Nat) :
    imageUnder (getcycles p true) y = extFun p y :=
  imageUnder_getcycles_true p hv y

theorem extFun_bounds (p : permutation) (hv : Valid p) (N : Nat) (hN : p.size ≤ N)
    (y : Nat) (hy : 1 ≤ y ∧ y ≤ N) : 1 ≤ extFun p y ∧ extFun p y ≤ N := by
  unfold extFun
  split
  · rename_i h
    have := valid_applyN_bounds p hv y h
    omega
  · exact hy

theorem extFun_inj (p : permutation) (hv : Valid p) (y z : Nat)
    (h : extFun p y = extFun p z) : y = z := by
  unfold extFun at h
  split at h <;> split at h
  · rename_i hy hz
    exact valid_applyN_inj p hv y z hy hz h
  · rename_i hy hz
    have := valid_applyN_bounds p hv y hy
    omega
  · rename_i hy hz
    have := valid_applyN_bounds p hv z hz
    omega
  · exact h

theorem extFun_out (p : permutation) (y : Nat) (hy : ¬ (1 ≤ y ∧ y ≤ p.size)) :
    extFun p y = y := by
  unfold extFun
  rw [if_neg hy]

theorem getD_map_range' (N : Nat) (F : Nat → Nat) (y : Nat) (hy : 1 ≤ y ∧ y ≤ N) :
    ((List.range' 1 N).map F).getD (y - 1) 0 = F y := by
  have hlt : y - 1 < ((List.range' 1 N).map F).length := by
    simp
    omega
  rw [getD_eq_get _ (y-1) hlt 0]
  simp only [List.get_eq_getElem, List.getElem_map, List.getElem_range']
  exact congrArg F (by omega)

theorem mul_char (a b : permutation) (hva : Valid a) (hvb : Valid b) :
    ∃ r, mul a b = some r ∧ Valid r ∧ r.size = max a.size b.size
      ∧ (∀ y, extFun r y = extFun a (extFun b y)) := by
  have hne : getcycles a true ++ getcycles b true ≠ [] := by
    intro h
    exact getcycles_true_ne_nil a hva (List.append_eq_nil.mp h).1
  have hcne : ∀ c, c ∈ getcycles a true ++ getcycles b true → c ≠ [] := by
    intro c hc
    rcases List.mem_append.mp hc with h | h
    · exact ((getcycles_false_spec a hva).1 c (getcycles_true_subset a c h)).1
    · exact ((getcycles_false_spec b hvb).1 c (getcycles_true_subset b c h)).1
  have hmp : maxPoint (getcycles a true ++ getcycles b true) = max a.size b.size := by
    rw [maxPoint_append, maxPoint_getcycles_true a hva, maxPoint_getcycles_true b hvb]
  have himg : ∀ y, imageUnder (getcycles a true ++ getcycles b true) y
      = extFun a (extFun b y) := by
    intro y
    rw [imageUnder_append, imageUnder_getcycles_ext b hvb,
      imageUnder_getcycles_ext a hva]
  have hmul : mul a b = some ⟨(List.range' 1 (max a.size b.size)).map
      (fun y => extFun a (extFun b y))⟩ := by
    unfold mul
    rw [construct_eq_some _ hne hcne]
    rw [hmp]
    congr 1
    congr 1
    exact List.map_congr_left (fun y _ => himg y)
  set r : permutation := ⟨(List.range' 1 (max a.size b.size)).map
      (fun y => extFun a (extFun b y))⟩ with hr
  have hsize : r.size = max a.size b.size := by
    rw [hr]
    simp [permutation.size]
  have hFbounds : ∀ y, 1 ≤ y → y ≤ max a.size b.size →
      1 ≤ extFun a (extFun b y) ∧ extFun a (extFun b y) ≤ max a.size b.size := by
    intro y h1 h2
    exact extFun_bounds a hva _ (Nat.le_max_left _ _) _
      (extFun_bounds b hvb _ (Nat.le_max_right _ _) y ⟨h1, h2⟩)
  have hvr : Valid r := by
    constructor
    · rw [hsize]
      have := hva.1
      omega
    · rw [hsize, hr]
      exact perm_of_range'_map (max a.size b.size) _
        (fun y h1 h2 => hFbounds y h1 h2)
        (fun y z h1 h2 h3 h4 h =>
          extFun_inj b hvb y z (extFun_inj a hva _ _ h))
  refine ⟨r, hmul, hvr, hsize, ?_⟩
  intro y
  by_cases hy : 1 ≤ y ∧ y ≤ max a.size b.size
  · rw [extFun, if_pos (by rw [hsize]; exact hy)]
    rw [applyN, hr]
    exact getD_map_range' _ _ y hy
  · rw [extFun_out r y (by rw [hsize]; exact hy)]
    have hyb : ¬ (1 ≤ y ∧ y ≤ b.size) := by
      have := Nat.le_max_right a.size b.size
      omega
    rw [extFun_out b y hyb]
    have hya : ¬ (1 ≤ y ∧ y ≤ a.size) := by
      have := Nat.le_max_left a.size b.size
      omega
    rw [extFun_out a y hya]

theorem permutation_ext_of_extFun (r1 r2 : permutation) (hs : r1.size = r2.size)
    (h : ∀ y, extFun r1 y = extFun r2 y) : r1 = r2 := by
  have hlk : r1.lookup = r2.lookup := by
    apply List.ext_get
    · exact hs
    · intro i h1 h2
      have hi : 1 ≤ i + 1 ∧ i + 1 ≤ r1.size := ⟨by omega, h1⟩
      have := h (i + 1)
      rw [extFun, if_pos hi, extFun, if_pos (by rw [← hs]; exact hi)] at this
      rw [applyN, applyN, Nat.add_sub_cancel] at this
      rw [getD_eq_get r1.lookup i h1 0, getD_eq_get r2.lookup i h2 0] at this
      exact this
  cases r1
  cases r2
  simp only at hlk
  rw [hlk]

theorem mul_assoc_full (a b c : permutation) (hva : Valid a) (hvb : Valid b)
    (hvc : Valid c) :
    ∃ ab bc r, mul a b = some ab ∧ mul b c = some bc
      ∧ mul ab c = some r ∧ mul a bc = some r := by
  obtain ⟨ab, hab, hvab, hsab, heab⟩ := mul_char a b hva hvb
  obtain ⟨bc, hbc, hvbc, hsbc, hebc⟩ := mul_char b c hvb hvc
  obtain ⟨r1, hr1, hvr1, hsr1, her1⟩ := mul_char ab c hvab hvc
  obtain ⟨r2, hr2, hvr2, hsr2, her2⟩ := mul_char a bc hva hvbc
  have hreq : r1 = r2 := by
    apply permutation_ext_of_extFun
    · rw [hsr1, hsr2, hsab, hsbc, Nat.max_assoc]
    · intro y
      rw [her1 y, her2 y, heab, hebc]
  refine ⟨ab, bc, r1, hab, hbc, hr1, ?_⟩
  rw [hreq]
  exact hr2

/-! ### Sign -/

/-- Number of even-length cycles in the simplified decomposition (what `sgn`
counts). -/
def evenCycleCount (p : permutation) : Nat :=
  ((getcycles p true).filter (fun c => c.length % 2 == 0)).length

/-- The number of transpositions in the standard factorization of the
permutation: an L-cycle contributes L - 1 transpositions.  Summed over the
full (unsimplified) disjoint-cycle decomposition. -/
def transpositionCount (p : permutation) : Nat :=
  ((getcycles p false).map (fun c => c.length - 1)).sum

/-- The textbook notion: a permutation is odd when it is a product of an odd
number of transpositions. -/
def IsOddPerm (p : permutation) : Prop := Odd (transpositionCount p)

theorem neg_two_mul_mod_two (cnt : Nat) :
    (-2 : Int) * ((cnt : Int) % 2) + 1 = (-1) ^ cnt := by
  rcases Nat.even_or_odd cnt with h | h
  · rw [Even.neg_one_pow h]
    have h0 : cnt % 2 = 0 := Nat.even_iff.mp h
    omega
  · rw [Odd.neg_one_pow h]
    have h1 : cnt % 2 = 1 := Nat.odd_iff.mp h
    omega

theorem sgn_eq_pow (p : permutation) : sgn p = (-1) ^ evenCycleCount p := by
  unfold sgn evenCycleCount
  exact neg_two_mul_mod_two _

theorem filter_filter_of (q pr : List Nat → Bool) :
    ∀ l : List (List Nat), (∀ c, c ∈ l → q c = true → pr c = true) →
    (l.filter pr).filter q = l.filter q := by
  intro l
  induction l with
  | nil => intro _; rfl
  | cons c l ih =>
    intro h
    have ihh := ih (fun d hd => h d (List.mem_cons_of_mem c hd))
    by_cases hq : q c = true
    · have hpr := h c (List.mem_cons_self c l) hq
      simp only [List.filter_cons, hq, hpr, if_true, ihh]
    · cases hpr : pr c with
      | false => simp only [List.filter_cons, hpr, hq, Bool.false_eq_true, if_false, ihh]
      | true => simp only [List.filter_cons, hpr, hq, Bool.false_eq_true, if_true, if_false, ihh]

theorem evenCycleCount_eq_full (p : permutation) (hv : Valid p) :
    evenCycleCount p
      = ((getcycles p false).filter (fun c => c.length % 2 == 0)).length := by
  unfold evenCycleCount
  rw [getcycles_simplify_eq_filter p,
    filter_filter_of _ _ (getcycles p false) ?_]
  intro c hc hq
  have hne := ((getcycles_false_spec p hv).1 c hc).1
  have hpos : 0 < c.length := List.length_pos.mpr hne
  have heven : c.length % 2 = 0 := by simpa using hq
  have : 1 < c.length := by omega
  simp [this]

theorem sum_sub_one_mod_two (l : List (List Nat)) (h : ∀ c, c ∈ l → c ≠ []) :
    ((l.map (fun c => c.length - 1)).sum) % 2
      = (l.filter (fun c => c.length % 2 == 0)).length % 2 := by
  induction l with
  | nil => rfl
  | cons c l ih =>
    have hc : 1 ≤ c.length :=
      List.length_pos.mpr (h c (List.mem_cons_self c l))
    have ihh := ih (fun d hd => h d (List.mem_cons_of_mem c hd))
    simp only [List.map_cons, List.sum_cons, List.filter_cons]
    by_cases he : c.length % 2 = 0
    · rw [if_pos (by simpa using he)]
      simp only [List.length_cons]
      omega
    · rw [if_neg (by simpa using he)]
      have : c.length % 2 = 1 := by omega
      omega

theorem sgn_parity_char (p : permutation) (hv : Valid p) :
    (sgn p = -1 ↔ IsOddPerm p) ∧ (sgn p = 1 ↔ ¬ IsOddPerm p) := by
  have hmod : transpositionCount p % 2 = evenCycleCount p % 2 := by
    rw [evenCycleCount_eq_full p hv]
    exact sum_sub_one_mod_two (getcycles p false)
      (fun c hc => ((getcycles_false_spec p hv).1 c hc).1)
  have hodd : IsOddPerm p ↔ Odd (evenCycleCount p) := by
    unfold IsOddPerm
    rw [Nat.odd_iff, Nat.odd_iff, hmod]
  rw [sgn_eq_pow p]
  rcases Nat.even_or_odd (evenCycleCount p) with h | h
  · rw [Even.neg_one_pow h]
    have hno : ¬ IsOddPerm p := by
      rw [hodd]
      exact Nat.even_iff_not_odd.mp h
    constructor
    · constructor
      · intro h1; exact absurd h1 (by decide)
      · intro h1; exact absurd h1 hno
    · constructor
      · intro _; exact hno
      · intro _; rfl
  · rw [Odd.neg_one_pow h]
    have hyes : IsOddPerm p := hodd.mpr h
    constructor
    · constructor
      · intro _; exact hyes
      · intro _; rfl
    · constructor
      · intro h1; exact absurd h1 (by decide)
      · intro h1; exact absurd hyes h1

/-! ### Order: left-nested powers and the loop -/

/-- The left-nested product `((a*a)*a)*…*a` with `k` factors, the value the
`order` loop holds after `k - 1` multiplications. -/
def leftPow (a : permutation) : Nat → Option permutation
  | 0 => none
  | 1 => some a
  | k+2 =>
    match leftPow a (k+1) with
    | none => none
    | some r => mul r a

theorem leftPow_succ (a : permutation) (k : Nat) (hk : 1 ≤ k) :
    leftPow a (k+1) =
      match leftPow a k with
      | none => none
      | some r => mul r a := by
  match k, hk with
  | k+1, _ => rfl

theorem orderAux_sound (a : permutation) :
    ∀ fuel result count k, orderAux a fuel result count = some k →
    leftPow a (count+1) = some result →
    (∀ j, 1 ≤ j → j < count → ∃ r, leftPow a (j+1) = some r ∧ ¬ permEq r a) →
    1 ≤ count →
    (count ≤ k ∧ (∃ r, leftPow a (k+1) = some r ∧ permEq r a)
      ∧ (∀ j, 1 ≤ j → j < k → ∃ r, leftPow a (j+1) = some r ∧ ¬ permEq r a)) := by
  intro fuel
  induction fuel with
  | zero =>
    intro result count k h
    cases h
  | succ fuel ih =>
    intro result count k h hlp hinv hc1
    by_cases hpe : permEq result a
    · simp only [orderAux, if_pos hpe, Option.some.injEq] at h
      subst h
      exact ⟨Nat.le_refl _, ⟨result, hlp, hpe⟩, hinv⟩
    · simp only [orderAux, if_neg hpe] at h
      cases hmul : mul result a with
      | none => rw [hmul] at h; cases h
      | some r =>
        rw [hmul] at h
        have hlp2 : leftPow a (count+1+1) = some r := by
          rw [leftPow_succ a (count+1) (by omega), hlp]
          exact hmul
        have hinv2 : ∀ j, 1 ≤ j → j < count+1 →
            ∃ r2, leftPow a (j+1) = some r2 ∧ ¬ permEq r2 a := by
          intro j hj1 hj2
          by_cases hjc : j < count
          · exact hinv j hj1 hjc
          · have hje : j = count := by omega
            subst hje
            exact ⟨result, hlp, hpe⟩
        have hres := ih r (count+1) k h hlp2 hinv2 (by omega)
        exact ⟨by omega, hres.2.1, hres.2.2⟩

theorem permOrder_sound (a : permutation) (k : Nat) (h : permOrder a = some k) :
    1 ≤ k ∧ (∃ r, leftPow a (k+1) = some r ∧ permEq r a)
      ∧ (∀ j, 1 ≤ j → j < k → ∃ r, leftPow a (j+1) = some r ∧ ¬ permEq r a) := by
  unfold permOrder at h
  cases hmul : mul a a with
  | none => rw [hmul] at h; cases h
  | some r =>
    rw [hmul] at h
    have hlp : leftPow a 2 = some r := by
      rw [show (2:Nat) = 1 + 1 from rfl, leftPow_succ a 1 (Nat.le_refl 1)]
      exact hmul
    have hres := orderAux_sound a orderFuel r 1 k h hlp
      (by intro j hj1 hj2; omega) (Nat.le_refl 1)
    exact ⟨by omega, hres.2.1, hres.2.2⟩

/-! ### Application -/

theorem applyE_ok (p : permutation) (x : Int) (h1 : 1 ≤ x) (h2 : x ≤ (p.size : Int)) :
    applyE p x = Except.ok (p.lookup.getD (x - 1).toNat 0) := by
  have hlen : p.lookup.length = p.size := rfl
  have h0 : 0 ≤ x - 1 := by omega
  have hlt : (x-1).toNat < p.lookup.length := by omega
  unfold applyE
  rw [pyGet?_pos p.lookup (x-1) h0 hlt, getD_eq_get p.lookup _ hlt 0]

theorem applyE_err (p : permutation) (x : Int)
    (h : (p.size : Int) < x ∨ x < -((p.size : Int) - 1)) :
    applyE p x = Except.error (rangeErr x p.size) := by
  have hlen : p.lookup.length = p.size := rfl
  unfold applyE
  rw [pyGet?_none p.lookup (x-1) (by omega)]

theorem applyE_wrap (p : permutation) (x : Int) (hs : 1 ≤ p.size)
    (h1 : -((p.size : Int) - 1) ≤ x) (h2 : x ≤ 0) :
    applyE p x = Except.ok (p.lookup.getD (((x - 1) % (p.size : Int)).toNat) 0) := by
  have hlen : p.lookup.length = p.size := rfl
  have hneg : x - 1 < 0 := by omega
  have hnn : 0 ≤ x - 1 + p.lookup.length := by omega
  have hlt : (x - 1 + p.lookup.length).toNat < p.lookup.length := by omega
  have hmod : (x - 1) % (p.size : Int) = x - 1 + p.size := by
    have hstep : (x - 1 + (p.size : Int) * 1) % (p.size : Int)
        = (x - 1) % (p.size : Int) := Int.add_mul_emod_self_left _ _ _
    rw [Int.mul_one] at hstep
    rw [← hstep]
    exact Int.emod_eq_of_lt (by omega) (by omega)
  unfold applyE
  rw [pyGet?_negIdx p.lookup (x-1) hneg hnn hlt]
  rw [hmod]
  rw [getD_eq_get p.lookup _ (by omega : (x - 1 + (p.size : Int)).toNat < p.lookup.length) 0]
  have hidx : (x - 1 + (p.lookup.length : Int)).toNat
      = (x - 1 + (p.size : Int)).toNat := by omega
  exact congrArg Except.ok (get_index_congr _ _ _ _ _ hidx.symm).symm

/-! ### Construction yields a valid permutation -/

theorem construct_valid (cycles : List (List Nat)) (h1 : cycles ≠ [])
    (h2 : ∀ c, c ∈ cycles → c ≠ [] ∧ c.Nodup ∧ ∀ x, x ∈ c → 1 ≤ x) :
    ∃ p, construct cycles = some p ∧ Valid p ∧ p.size = maxPoint cycles := by
  rw [construct_eq_some cycles h1 (fun c hc => (h2 c hc).1)]
  have hsize : (permutation.mk ((List.range' 1 (maxPoint cycles)).map
      (fun i => imageUnder cycles i))).size = maxPoint cycles := by
    simp [permutation.size]
  refine ⟨_, rfl, ⟨?_, ?_⟩, hsize⟩
  · rw [hsize]
    obtain ⟨c, hc⟩ := List.exists_mem_of_ne_nil cycles h1
    obtain ⟨x, hx⟩ := List.exists_mem_of_ne_nil c ((h2 c hc).1)
    have hx1 : 1 ≤ x := (h2 c hc).2.2 x hx
    have := le_maxPoint cycles c x hc hx
    omega
  · rw [hsize]
    have hbd : ∀ c, c ∈ cycles → ∀ z, z ∈ c → 1 ≤ z ∧ z ≤ maxPoint cycles :=
      fun c hc z hz => ⟨(h2 c hc).2.2 z hz, le_maxPoint cycles c z hc hz⟩
    exact perm_of_range'_map (maxPoint cycles) _
      (fun y hy1 hy2 => imageUnder_bounds (maxPoint cycles) cycles hbd y ⟨hy1, hy2⟩)
      (fun y z _ _ _ _ h =>
        imageUnder_injective cycles (fun c hc => (h2 c hc).2.1) h)

/-! ### The claims -/

/-- C1: construction from a sequence of cycles builds a lookup table over
`1..size` (size = maximum integer appearing in any cycle): the entry for each
point `i` applies the cycles in reverse order of the constructor arguments
(rightmost first, leftmost last, i.e. a right fold), where a single cycle
maps each of its elements to its cyclic successor and leaves any point not
present in it unchanged. -/
theorem claim1_construction (cycles : List (List Nat)) (p : permutation)
    (h : construct cycles = some p) :
    p.size = maxPoint cycles
    ∧ (∀ i, 1 ≤ i → i ≤ p.size →
        p.lookup.getD (i-1) 0 = cycles.foldr (fun c r => cycleApply c r) i)
    ∧ (∀ (c : List Nat) (x : Nat), x ∉ c → cycleApply c x = x)
    ∧ (∀ (c : List Nat) (j : Nat) (hj : j < c.length), c.Nodup →
        cycleApply c (c.get ⟨j, hj⟩) = c.getD ((j+1) % c.length) 0) := by
  obtain ⟨hlk, hsz⟩ := construct_some_inv cycles p h
  refine ⟨hsz, ?_, cycleApply_of_not_mem, ?_⟩
  · intro i h1 h2
    rw [hlk, getD_map_range' (maxPoint cycles) _ i ⟨h1, by rw [← hsz]; exact h2⟩]
    exact imageUnder_foldr cycles i
  · intro c j hj hnd
    rw [cycleApply_get c hnd j hj,
      getD_eq_get c _ (Nat.mod_lt _ (Nat.lt_of_le_of_lt (Nat.zero_le _) hj)) 0]

theorem claim1_witness :
    ex124.size = maxPoint [[1, 2, 4]]
    ∧ (∀ i, 1 ≤ i → i ≤ ex124.size →
        ex124.lookup.getD (i-1) 0
          = [[1, 2, 4]].foldr (fun c r => cycleApply c r) i)
    ∧ (∀ (c : List Nat) (x : Nat), x ∉ c → cycleApply c x = x)
    ∧ (∀ (c : List Nat) (j : Nat) (hj : j < c.length), c.Nodup →
        cycleApply c (c.get ⟨j, hj⟩) = c.getD ((j+1) % c.length) 0) :=
  claim1_construction [[1, 2, 4]] ex124 (by decide)

/-- C2 (amended): `apply(p)` returns `lookup[p-1]` for `1 ≤ p ≤ n` and raises
the out-of-range error (reporting the offending value and the bound `n`)
exactly when `p > n` or `p < -(n-1)`; for `-(n-1) ≤ p ≤ 0` Python's
negative indexing makes the call succeed instead of raising. -/
theorem claim2_apply (p : permutation) (x : Int) :
    (1 ≤ x → x ≤ (p.size : Int) →
      applyE p x = Except.ok (p.lookup.getD (x - 1).toNat 0))
    ∧ ((p.size : Int) < x ∨ x < -((p.size : Int) - 1) →
      applyE p x = Except.error (rangeErr x p.size)) :=
  ⟨fun h1 h2 => applyE_ok p x h1 h2, fun h => applyE_err p x h⟩

theorem claim2_witness :
    applyE ex124 3 = Except.ok (ex124.lookup.getD ((3:Int) - 1).toNat 0)
    ∧ applyE ex124 5 = Except.error (rangeErr 5 ex124.size) :=
  ⟨(claim2_apply ex124 3).1 (by decide) (by decide),
   (claim2_apply ex124 5).2 (Or.inl (by decide))⟩

/-- C2 counterexample: the claim says `apply(p)` raises whenever `p < 1`, but
on the permutation `(1 2)` the call `apply(0)` returns 1 (the image of point
2, by negative-index wraparound) and raises nothing. -/
theorem claim2_counterexample :
    (0 : Int) < 1 ∧ applyE ex12 0 = Except.ok 1
    ∧ ∀ e : String, applyE ex12 0 ≠ Except.error e := by
  refine ⟨by decide, rfl, ?_⟩
  intro e h
  rw [show applyE ex12 0 = Except.ok 1 from rfl] at h
  cases h

/-- C3: `order` returns the count computed by the exact loop: the least
`count ≥ 1` such that the left-nested product of `count + 1` copies of `a`
is string-equal to `a`, every earlier candidate failing the comparison; and
the order of `perm((1,3),(2,5),(7,4,6))` is 6. -/
theorem claim3_order :
    (∀ a k, permOrder a = some k →
      1 ≤ k ∧ (∃ r, leftPow a (k+1) = some r ∧ permEq r a)
      ∧ (∀ j, 1 ≤ j → j < k → ∃ r, leftPow a (j+1) = some r ∧ ¬ permEq r a))
    ∧ permOrder exOrd = some 6 :=
  ⟨fun a k h => permOrder_sound a k h, by decide⟩

theorem claim3_witness :
    1 ≤ 6 ∧ (∃ r, leftPow exOrd (6+1) = some r ∧ permEq r exOrd)
    ∧ (∀ j, 1 ≤ j → j < 6 →
        ∃ r, leftPow exOrd (j+1) = some r ∧ ¬ permEq r exOrd) :=
  claim3_order.1 exOrd 6 claim3_order.2

/-- C4 (amended): `a ** k` is construction from `a`'s simplified cycle list
repeated `k` times; for `k ≥ 1` on a valid permutation this yields a
permutation, but `a ** 0` feeds the constructor an empty cycle sequence, so
it raises a construction error instead of yielding the identity;
`perm((1,2,3)) ** 3` equals `perm((3,))`. -/
theorem claim4_power :
    (∀ a k, powP a k = construct (listRepeat (getcycles a true) k))
    ∧ (∀ a, powP a 0 = none)
    ∧ (∀ a k, Valid a → 1 ≤ k → ∃ q, powP a k = some q)
    ∧ (∃ q r, powP ex123 3 = some q ∧ construct [[3]] = some r ∧ permEq q r) := by
  refine ⟨fun a k => rfl, fun a => rfl, ?_, ?_⟩
  · intro a k hva hk
    have hg : getcycles a true ≠ [] := getcycles_true_ne_nil a hva
    obtain ⟨c, hc⟩ := List.exists_mem_of_ne_nil _ hg
    have hmemg : getcycles a true ∈ List.replicate k (getcycles a true) :=
      List.mem_replicate.mpr ⟨by omega, rfl⟩
    have hcmem : c ∈ listRepeat (getcycles a true) k := by
      unfold listRepeat
      exact List.mem_flatten.mpr ⟨getcycles a true, hmemg, hc⟩
    have hne : listRepeat (getcycles a true) k ≠ [] := List.ne_nil_of_mem hcmem
    have hcne : ∀ d, d ∈ listRepeat (getcycles a true) k → d ≠ [] := by
      intro d hd
      unfold listRepeat at hd
      obtain ⟨l, hl, hdl⟩ := List.mem_flatten.mp hd
      rw [(List.mem_replicate.mp hl).2] at hdl
      exact ((getcycles_false_spec a hva).1 d (getcycles_true_subset a d hdl)).1
    unfold powP
    rw [construct_eq_some _ hne hcne]
    exact ⟨_, rfl⟩
  · exact ⟨construct! [[1,2,3],[1,2,3],[1,2,3]], construct! [[3]],
      by decide, by decide, by decide⟩

theorem claim4_witness :
    powP ex123 2 = construct (listRepeat (getcycles ex123 true) 2)
    ∧ powP ex123 0 = none
    ∧ (∃ q, powP ex123 1 = some q) :=
  ⟨claim4_power.1 ex123 2, claim4_power.2.1 ex123,
   claim4_power.2.2.1 ex123 1 (by decide) (by decide)⟩

/-- C4 counterexample: the claim says `a ** 0` yields the identity
permutation, but `perm((1,2,3)) ** 0` yields no permutation at all: the
construction fails (`max()` of an empty sequence). -/
theorem claim4_counterexample :
    powP ex123 0 = none ∧ ∀ q : permutation, powP ex123 0 ≠ some q := by
  refine ⟨rfl, ?_⟩
  intro q h
  rw [show powP ex123 0 = none from rfl] at h
  cases h

/-- C5: for a valid permutation, `_getcycles(simplify=True)` returns exactly
the disjoint cycles of the full decomposition of length greater than 1,
except that the cycle containing the point `size` is always retained, even
as a 1-cycle; the full decomposition's cycles are nonempty, duplicate-free,
pairwise disjoint and cover exactly the points `1..size`. -/
theorem claim5_simplify (p : permutation) (hv : Valid p) :
    getcycles p true = (getcycles p false).filter
      (fun c => decide (1 < c.length) || c.contains p.size)
    ∧ (∀ c, c ∈ getcycles p false → c ≠ [] ∧ c.Nodup)
    ∧ List.Pairwise (fun c d => ∀ x, x ∈ c → x ∉ d) (getcycles p false)
    ∧ (∀ x, (1 ≤ x ∧ x ≤ p.size) ↔ ∃ c, c ∈ getcycles p false ∧ x ∈ c) := by
  obtain ⟨hA, hB, hC⟩ := getcycles_false_spec p hv
  exact ⟨getcycles_simplify_eq_filter p,
    fun c hc => ⟨(hA c hc).1, (hA c hc).2.1⟩, hB,
    fun x => (hC x).symm⟩

theorem claim5_witness :
    getcycles (construct! [[1,2],[5,4],[3,6],[7],[9]]) true
      = (getcycles (construct! [[1,2],[5,4],[3,6],[7],[9]]) false).filter
          (fun c => decide (1 < c.length)
            || c.contains (construct! [[1,2],[5,4],[3,6],[7],[9]]).size) :=
  (claim5_simplify (construct! [[1,2],[5,4],[3,6],[7],[9]]) (by decide)).1

/-- C6: `sgn` equals `(-1)` to the number of even-length cycles in the
simplified decomposition, is `-1` exactly for odd permutations (an odd
number of transpositions) and `+1` exactly for even ones; and the four
concrete scenarios of the spec hold. -/
theorem claim6_sgn :
    (∀ p, Valid p → sgn p = (-1) ^ evenCycleCount p
      ∧ (sgn p = -1 ↔ IsOddPerm p) ∧ (sgn p = 1 ↔ ¬ IsOddPerm p))
    ∧ sgn ex4 = 1 ∧ sgn ex13 = -1
    ∧ (∃ q, powP ex4 2 = some q ∧ sgn q = 1)
    ∧ (∃ q, mul ex4 ex13 = some q ∧ sgn q = -1) :=
  ⟨fun p hv => ⟨sgn_eq_pow p, (sgn_parity_char p hv).1, (sgn_parity_char p hv).2⟩,
   by decide, by decide,
   ⟨construct! [[4],[4]], by decide, by decide⟩,
   ⟨construct! [[4],[1,3]], by decide, by decide⟩⟩

theorem claim6_witness : sgn ex4 = (-1) ^ evenCycleCount ex4 :=
  (claim6_sgn.1 ex4 (by decide)).1

/-- C7: constructing from any nonempty list of nonempty cycles of distinct
positive integers (overlaps between cycles allowed) succeeds and yields a
lookup table that is a bijection on `1..size`: it is a permutation of the
list `1, …, size`, every such value appearing exactly once. -/
theorem claim7_bijection (cycles : List (List Nat)) (h1 : cycles ≠ [])
    (h2 : ∀ c, c ∈ cycles → c ≠ [] ∧ c.Nodup ∧ ∀ x, x ∈ c → 1 ≤ x) :
    ∃ p, construct cycles = some p
      ∧ List.Perm p.lookup (List.range' 1 p.size)
      ∧ ∀ v, 1 ≤ v → v ≤ p.size → p.lookup.count v = 1 := by
  obtain ⟨p, hp, hv, _⟩ := construct_valid cycles h1 h2
  refine ⟨p, hp, hv.2, ?_⟩
  intro v h1v h2v
  rw [List.Perm.count_eq hv.2]
  exact List.count_eq_one_of_mem (List.nodup_range' 1 p.size)
    ((mem_range'_bounds 1 p.size v).mpr (by omega))

theorem claim7_witness :
    ∃ p, construct [[1,2],[2,3]] = some p
      ∧ List.Perm p.lookup (List.range' 1 p.size)
      ∧ ∀ v, 1 ≤ v → v ≤ p.size → p.lookup.count v = 1 :=
  claim7_bijection [[1,2],[2,3]] (by decide) (by decide)

/-- C8: multiplication is associative: for all valid permutations `a`, `b`,
`c`, both products are defined and `(a*b)*c` equals `a*(b*c)` under the
string-based equality of `__eq__` (in fact the two results coincide as
lookup tables). -/
theorem claim8_assoc (a b c : permutation) (hva : Valid a) (hvb : Valid b)
    (hvc : Valid c) :
    ∃ ab bc r1 r2, mul a b = some ab ∧ mul b c = some bc
      ∧ mul ab c = some r1 ∧ mul a bc = some r2 ∧ permEq r1 r2 := by
  obtain ⟨ab, bc, r, h1, h2, h3, h4⟩ := mul_assoc_full a b c hva hvb hvc
  exact ⟨ab, bc, r, r, h1, h2, h3, h4, rfl⟩

theorem claim8_witness :
    ∃ ab bc r1 r2, mul ex12 (construct! [[2,3]]) = some ab
      ∧ mul (construct! [[2,3]]) ex13 = some bc
      ∧ mul ab ex13 = some r1 ∧ mul ex12 bc = some r2 ∧ permEq r1 r2 :=
  claim8_assoc ex12 (construct! [[2,3]]) ex13 (by decide) (by decide) (by decide)

/-- C9: reconstructing a valid permutation from the cycles listed in its
code-reconstruction form (`__repr__` passes `self._getcycles()` as the
constructor arguments) yields a value equal to the original under the
string-based equality — in fact the very same lookup table. -/
theorem claim9_roundtrip (p : permutation) (hv : Valid p) :
    ∃ q, construct (reprCycles p) = some q ∧ permEq q p := by
  refine ⟨p, ?_, rfl⟩
  unfold reprCycles
  exact construct_getcycles p hv

theorem claim9_witness :
    ∃ q, construct (reprCycles ex124) = some q ∧ permEq q ex124 :=
  claim9_roundtrip ex124 (by decide)

/-- C10: for a permutation of size `n ≥ 2` and any integer `p` with
`-(n-1) ≤ p ≤ 0`, `apply(p)` raises no error and returns
`lookup[(p-1) mod n]` by negative-index wraparound; in particular
`apply(0)` returns the image of the point `n`. -/
theorem claim10_wraparound (p : permutation) (x : Int) (hs : 2 ≤ p.size)
    (h1 : -((p.size : Int) - 1) ≤ x) (h2 : x ≤ 0) :
    applyE p x = Except.ok (p.lookup.getD (((x - 1) % (p.size : Int)).toNat) 0)
    ∧ applyE p 0 = Except.ok (p.lookup.getD (p.size - 1) 0) := by
  constructor
  · exact applyE_wrap p x (by omega) h1 h2
  · have h := applyE_wrap p 0 (by omega) (by omega) (by omega)
    have hmod : ((0 : Int) - 1) % (p.size : Int) = (p.size : Int) - 1 := by
      have hstep := Int.add_mul_emod_self_left ((0:Int) - 1) ((p.size:Int)) 1
      rw [Int.mul_one] at hstep
      rw [← hstep]
      rw [Int.emod_eq_of_lt (by omega) (by omega)]
      omega
    rw [h, hmod]
    exact congrArg Except.ok (congrArg (fun i => p.lookup.getD i 0) (by omega))

theorem claim10_witness :
    applyE ex124 (-1) = Except.ok
      (ex124.lookup.getD ((((-1:Int) - 1) % ((ex124.size : Int))).toNat) 0)
    ∧ applyE ex124 0 = Except.ok (ex124.lookup.getD (ex124.size - 1) 0) :=
  claim10_wraparound ex124 (-1) (by decide) (by decide) (by decide)
